import Mathlib

/-!
Verification of the player entity-resolution engine of this repository.

The engine is spread over several scripts; the relevant ones are embedded
faithfully below, each in its own namespace:

* `Fuzzy`  — `src/bigquery/_archive/old_nepsac_rosters/nepsac_fuzzy_roster_matcher.py`
* `Fast`   — `src/bigquery/_archive/old_nepsac_rosters/nepsac_fuzzy_roster_matcher_fast.py`
* `PM`     — `src/bigquery/_archive/old_nepsac_rosters/nepsac_player_matcher.py`

Modelling conventions:

* Python strings are modelled as Lean `String` restricted to ASCII content
  (`str.lower`, `str.upper`, the regex classes `\w` and `\s` are given their
  ASCII meaning; every concrete input in the repository's data files that the
  theorems evaluate is ASCII).
* Python floats are modelled as exact rationals (`ℚ`); every constant in the
  source (`0.7`, `0.85`, ...) is a short decimal fraction, and no theorem
  below depends on a comparison closer than float rounding error.
* `difflib.SequenceMatcher.ratio()` is embedded as `SeqMatcher.ratio`
  (Ratcliff/Obershelp matching blocks, no junk; the source only compares
  strings far below the 200-character autojunk cutoff).
* Python dictionaries preserve insertion order; they are modelled as
  association lists in insertion order.
-/

namespace Py

/-- ASCII model of Python's `str.isspace` / regex `\s` character class. -/
def isSpace (c : Char) : Bool :=
  c = ' ' || c = '\t' || c = '\n' || c = '\r' || c = '\x0b' || c = '\x0c'

/-- ASCII model of `str.lower` (Lean's `Char.toLower` is exactly the
ASCII case map). -/
def lower (s : String) : String := ⟨s.data.map Char.toLower⟩

/-- ASCII model of `str.upper`. -/
def upper (s : String) : String := ⟨s.data.map Char.toUpper⟩

/-- `str.strip()` on the character list: whitespace removed from both ends. -/
def stripList (l : List Char) : List Char :=
  ((l.dropWhile isSpace).reverse.dropWhile isSpace).reverse

/-- Python `str.strip()`. -/
def strip (s : String) : String := ⟨stripList s.data⟩

/-- Helper for `split`: accumulates the current word (reversed). -/
def splitGo : List Char → List Char → List String
  | [], acc => if acc = [] then [] else [⟨acc.reverse⟩]
  | c :: rest, acc =>
    if isSpace c then
      if acc = [] then splitGo rest []
      else (⟨acc.reverse⟩ : String) :: splitGo rest []
    else splitGo rest (c :: acc)

/-- Python `str.split()` with no argument: splits on whitespace runs and
never yields empty tokens. -/
def split (s : String) : List String := splitGo s.data []

/-- ASCII model of the regex `\w` character class (letters, digits,
underscore). -/
def isWordChar (c : Char) : Bool := c.isAlphanum || c = '_'

/-- Boolean prefix test on character lists. -/
def prefixCheck : List Char → List Char → Bool
  | [], _ => true
  | _ :: _, [] => false
  | a :: as, b :: bs => a = b && prefixCheck as bs

/-- Boolean infix test on character lists. -/
def infixCheck (needle : List Char) : List Char → Bool
  | [] => needle.isEmpty
  | c :: rest => prefixCheck needle (c :: rest) || infixCheck needle rest

/-- Python's substring test `needle in hay` (true for the empty needle). -/
def isSubstr (needle hay : String) : Bool := infixCheck needle.data hay.data

/-- Digits of a Python integer literal after the first: digit runs with
single interior underscores (`int("2_025")` parses in Python). -/
def digitsTail : List Char → Bool
  | [] => true
  | '_' :: d :: rest => d.isDigit && digitsTail rest
  | '_' :: [] => false
  | d :: rest => d.isDigit && digitsTail rest

/-- Valid digit part of a Python integer literal. -/
def digitsOk : List Char → Bool
  | [] => false
  | d :: rest => d.isDigit && digitsTail rest

/-- Numeric value of a digit list, skipping underscores. -/
def digitsVal (l : List Char) : Nat :=
  l.foldl (fun acc c => if c = '_' then acc else acc * 10 + (c.toNat - '0'.toNat)) 0

theorem uint32_le_iff (a b : UInt32) : (a ≤ b) ↔ (a.toNat ≤ b.toNat) := by
  rw [UInt32.le_def, BitVec.le_def]
  exact Iff.rfl

theorem charUpperIff (c : Char) : c.isUpper = true ↔ (65 ≤ c.toNat ∧ c.toNat ≤ 90) := by
  unfold Char.isUpper
  rw [Bool.and_eq_true, decide_eq_true_iff, decide_eq_true_iff]
  constructor
  · intro ⟨h1, h2⟩
    exact ⟨(uint32_le_iff _ _).mp h1, (uint32_le_iff _ _).mp h2⟩
  · intro ⟨h1, h2⟩
    exact ⟨(uint32_le_iff _ _).mpr h1, (uint32_le_iff _ _).mpr h2⟩

/-- The ASCII case map never outputs an uppercase letter. -/
theorem toLower_not_upper (c : Char) : (c.toLower).isUpper = false := by
  show (if c.toNat ≥ 65 ∧ c.toNat ≤ 90 then Char.ofNat (c.toNat + 32) else c).isUpper = false
  split
  · rename_i h
    have hv : (c.toNat + 32).isValidChar := Or.inl (by omega)
    have hval : (Char.ofNat (c.toNat + 32)).toNat = c.toNat + 32 := by
      unfold Char.ofNat
      rw [dif_pos hv]
      rfl
    rw [Bool.eq_false_iff]
    intro hu
    have h2 := (charUpperIff _).mp hu
    rw [hval] at h2
    omega
  · rename_i h
    rw [Bool.eq_false_iff]
    intro hu
    have h2 := (charUpperIff _).mp hu
    omega

/-- Model of Python's `int(s)` on strings: strips whitespace, optional sign,
digits with optional interior underscores; `none` when `int` would raise
`ValueError`. -/
def parseInt (s : String) : Option Int :=
  match stripList s.data with
  | [] => none
  | c :: rest =>
    if c = '-' then
      if digitsOk rest then some (-(digitsVal rest : Int)) else none
    else if c = '+' then
      if digitsOk rest then some (digitsVal rest : Int) else none
    else
      if digitsOk (c :: rest) then some (digitsVal (c :: rest) : Int) else none


/-- Stable sort (insertion sort): `le x y` means `x` may stay before `y`;
elements equal under the order keep their original relative position,
exactly like Python's stable `sorted`/`list.sort`.  (Structurally
recursive so the kernel can evaluate it.) -/
def insertSorted {a : Type} (le : a → a → Bool) (x : a) : List a → List a
  | [] => [x]
  | y :: ys => if le x y then x :: y :: ys else y :: insertSorted le x ys

/-- Python's stable `sorted(l, key=...)`, with the key comparison baked
into `le`. -/
def pySorted {a : Type} (le : a → a → Bool) : List a → List a
  | [] => []
  | x :: xs => insertSorted le x (pySorted le xs)

theorem mem_insertSorted {a : Type} (le : a → a → Bool) (x : a) :
    ∀ (l : List a) (z : a), z ∈ insertSorted le x l ↔ z = x ∨ z ∈ l := by
  intro l
  induction l with
  | nil =>
    intro z
    simp [insertSorted]
  | cons y ys ih =>
    intro z
    unfold insertSorted
    split
    · simp [List.mem_cons]
    · simp only [List.mem_cons, ih]
      constructor
      · intro h
        rcases h with h | h | h
        · exact Or.inr (Or.inl h)
        · exact Or.inl h
        · exact Or.inr (Or.inr h)
      · intro h
        rcases h with h | h | h
        · exact Or.inr (Or.inl h)
        · exact Or.inl h
        · exact Or.inr (Or.inr h)

theorem mem_pySorted {a : Type} (le : a → a → Bool) :
    ∀ (l : List a) (z : a), z ∈ pySorted le l ↔ z ∈ l := by
  intro l
  induction l with
  | nil => intro z; exact Iff.rfl
  | cons x xs ih =>
    intro z
    unfold pySorted
    rw [mem_insertSorted]
    simp only [List.mem_cons, ih]

theorem length_insertSorted {a : Type} (le : a → a → Bool) (x : a) :
    ∀ l : List a, (insertSorted le x l).length = l.length + 1 := by
  intro l
  induction l with
  | nil => rfl
  | cons y ys ih =>
    unfold insertSorted
    split
    · rfl
    · simp only [List.length_cons, ih]

theorem length_pySorted {a : Type} (le : a → a → Bool) :
    ∀ l : List a, (pySorted le l).length = l.length := by
  intro l
  induction l with
  | nil => rfl
  | cons x xs ih =>
    unfold pySorted
    rw [length_insertSorted, ih]
    rfl

end Py

namespace SeqMatcher

/-- Length of the common prefix of two character lists. -/
def extendLen : List Char → List Char → Nat
  | a :: as, b :: bs => if a = b then extendLen as bs + 1 else 0
  | _, _ => 0

/-- `difflib.SequenceMatcher.find_longest_match` over the whole strings:
the longest common substring, returned as `(i, j, k)` (start in `a`, start
in `b`, length), ties resolved to the earliest start in `a`, then in `b`
(candidates are scanned in lexicographic `(i, j)` order and only a strictly
longer match replaces the current best, exactly difflib's record-update
discipline). -/
def longestMatch (a b : List Char) : Nat × Nat × Nat :=
  (List.range a.length).foldl (fun best i =>
    (List.range b.length).foldl (fun best j =>
      let k := extendLen (a.drop i) (b.drop j)
      if k > best.2.2 then (i, j, k) else best) best) (0, 0, 0)

/-- Total matched characters of `get_matching_blocks`, fuel-indexed so the
kernel can evaluate it (`fuel > a.length` always suffices). -/
def matchedAux : Nat → List Char → List Char → Nat
  | 0, _, _ => 0
  | fuel + 1, a, b =>
    let m := longestMatch a b
    if m.2.2 = 0 then 0
    else
      m.2.2 + matchedAux fuel (a.take m.1) (b.take m.2.1)
        + matchedAux fuel (a.drop (m.1 + m.2.2)) (b.drop (m.2.1 + m.2.2))

/-- Total size of all matching blocks (the `matches` of `ratio`). -/
def matched (a b : List Char) : Nat := matchedAux (a.length + 1) a b

/-- `SequenceMatcher(None, a, b).ratio()`: `2 * matches / (len(a) + len(b))`,
and `1.0` when both strings are empty (difflib's `_calculate_ratio`). -/
def ratio (a b : String) : ℚ :=
  if a.data.length + b.data.length = 0 then 1
  else (2 * matched a.data b.data : ℚ) / (a.data.length + b.data.length)

theorem extendLen_le_left : ∀ a b : List Char, extendLen a b ≤ a.length := by
  intro a
  induction a with
  | nil => intro b; cases b <;> simp [extendLen]
  | cons x as ih =>
    intro b
    cases b with
    | nil => simp [extendLen]
    | cons y bs =>
      simp only [extendLen, List.length_cons]
      split
      · exact Nat.succ_le_succ (ih bs)
      · exact Nat.zero_le _

theorem extendLen_le_right : ∀ a b : List Char, extendLen a b ≤ b.length := by
  intro a
  induction a with
  | nil => intro b; cases b <;> simp [extendLen]
  | cons x as ih =>
    intro b
    cases b with
    | nil => simp [extendLen]
    | cons y bs =>
      simp only [extendLen, List.length_cons]
      split
      · exact Nat.succ_le_succ (ih bs)
      · exact Nat.zero_le _

theorem extendLen_self : ∀ a : List Char, extendLen a a = a.length := by
  intro a
  induction a with
  | nil => simp [extendLen]
  | cons x as ih => simp [extendLen, ih]

/-- The block returned by `longestMatch` fits inside both lists. -/
theorem longestMatch_bounds (a b : List Char) :
    (longestMatch a b).1 + (longestMatch a b).2.2 ≤ a.length ∧
    (longestMatch a b).2.1 + (longestMatch a b).2.2 ≤ b.length := by
  unfold longestMatch
  refine List.foldlRecOn (motive := fun t : Nat × Nat × Nat =>
    t.1 + t.2.2 ≤ a.length ∧ t.2.1 + t.2.2 ≤ b.length)
    _ _ _ ⟨Nat.zero_le _, Nat.zero_le _⟩ (fun best hbest i hi => ?_)
  refine List.foldlRecOn (motive := fun t : Nat × Nat × Nat =>
    t.1 + t.2.2 ≤ a.length ∧ t.2.1 + t.2.2 ≤ b.length)
    _ _ _ hbest (fun cur hcur j hj => ?_)
  dsimp only
  split
  · refine ⟨?_, ?_⟩
    · show i + extendLen (a.drop i) (b.drop j) ≤ a.length
      have h1 := extendLen_le_left (a.drop i) (b.drop j)
      have h2 : (a.drop i).length = a.length - i := List.length_drop i a
      have hi' : i < a.length := List.mem_range.mp hi
      omega
    · show j + extendLen (a.drop i) (b.drop j) ≤ b.length
      have h1 := extendLen_le_right (a.drop i) (b.drop j)
      have h2 : (b.drop j).length = b.length - j := List.length_drop j b
      have hj' : j < b.length := List.mem_range.mp hj
      omega
  · exact hcur

theorem matchedAux_le_left : ∀ fuel (a b : List Char), matchedAux fuel a b ≤ a.length := by
  intro fuel
  induction fuel with
  | zero => intro a b; simp [matchedAux]
  | succ n ih =>
    intro a b
    rw [matchedAux]
    split
    · exact Nat.zero_le _
    · have hb := (longestMatch_bounds a b).1
      have h1 := ih (a.take (longestMatch a b).1) (b.take (longestMatch a b).2.1)
      have h2 := ih (a.drop ((longestMatch a b).1 + (longestMatch a b).2.2))
        (b.drop ((longestMatch a b).2.1 + (longestMatch a b).2.2))
      simp only [List.length_take, List.length_drop] at h1 h2
      omega

theorem matchedAux_le_right : ∀ fuel (a b : List Char), matchedAux fuel a b ≤ b.length := by
  intro fuel
  induction fuel with
  | zero => intro a b; simp [matchedAux]
  | succ n ih =>
    intro a b
    rw [matchedAux]
    split
    · exact Nat.zero_le _
    · have hb := (longestMatch_bounds a b).2
      have h1 := ih (a.take (longestMatch a b).1) (b.take (longestMatch a b).2.1)
      have h2 := ih (a.drop ((longestMatch a b).1 + (longestMatch a b).2.2))
        (b.drop ((longestMatch a b).2.1 + (longestMatch a b).2.2))
      simp only [List.length_take, List.length_drop] at h1 h2
      omega

theorem matched_le_left (a b : List Char) : matched a b ≤ a.length :=
  matchedAux_le_left _ a b

theorem matched_le_right (a b : List Char) : matched a b ≤ b.length :=
  matchedAux_le_right _ a b

theorem ratio_nonneg (a b : String) : 0 ≤ ratio a b := by
  unfold ratio
  split
  · norm_num
  · apply div_nonneg
    · positivity
    · positivity

theorem ratio_le_one (a b : String) : ratio a b ≤ 1 := by
  unfold ratio
  split
  · exact le_refl 1
  · rename_i h
    have hpos : (0 : ℚ) < (a.data.length : ℚ) + (b.data.length : ℚ) := by
      have h0 : 0 < a.data.length + b.data.length := Nat.pos_of_ne_zero h
      exact_mod_cast h0
    rw [div_le_one hpos]
    have h1 := matched_le_left a.data b.data
    have h2 := matched_le_right a.data b.data
    have h3 : 2 * matched a.data b.data ≤ a.data.length + b.data.length := by omega
    exact_mod_cast h3

theorem innerNoUpdate (ad b : List Char) (i : Nat) :
    ∀ (js : List Nat) (best : Nat × Nat × Nat),
      (∀ j, extendLen ad (b.drop j) ≤ best.2.2) →
      js.foldl (fun best j =>
        let k := extendLen ad (b.drop j)
        if k > best.2.2 then (i, j, k) else best) best = best := by
  intro js
  induction js with
  | nil => intro best h; rfl
  | cons x xs ih =>
    intro best h
    rw [List.foldl_cons]
    have e : (let k := extendLen ad (b.drop x)
              if k > best.2.2 then (i, x, k) else best) = best := by
      show (if extendLen ad (b.drop x) > best.2.2 then (i, x, extendLen ad (b.drop x)) else best)
          = best
      rw [if_neg (not_lt.mpr (h x))]
    rw [e]
    exact ih best h

theorem outerNoUpdate (a b : List Char) (js : List Nat) :
    ∀ (is : List Nat) (best : Nat × Nat × Nat),
      (∀ i j, extendLen (a.drop i) (b.drop j) ≤ best.2.2) →
      is.foldl (fun best i =>
        js.foldl (fun best j =>
          let k := extendLen (a.drop i) (b.drop j)
          if k > best.2.2 then (i, j, k) else best) best) best = best := by
  intro is
  induction is with
  | nil => intro best h; rfl
  | cons x xs ih =>
    intro best h
    rw [List.foldl_cons]
    rw [innerNoUpdate (a.drop x) b x _ best (fun j => h x j)]
    exact ih best h

theorem innerFoldSelf (l : List Char) (n : Nat) (hn : l.length = n + 1) (js : List Nat) :
    List.foldl (fun best j =>
      let k := extendLen (l.drop 0) (l.drop j)
      if k > best.2.2 then ((0 : Nat), j, k) else best)
      ((0 : Nat), (0 : Nat), (0 : Nat)) (0 :: js) = ((0 : Nat), (0 : Nat), n + 1) := by
  rw [List.foldl_cons]
  have e1 : (let k := extendLen (l.drop 0) (l.drop 0)
      if k > (((0 : Nat), (0 : Nat), (0 : Nat)) : Nat × Nat × Nat).2.2 then
        ((0 : Nat), (0 : Nat), k) else ((0 : Nat), (0 : Nat), (0 : Nat)))
      = ((0 : Nat), (0 : Nat), n + 1) := by
    show (if extendLen (l.drop 0) (l.drop 0) > (((0 : Nat), (0 : Nat), (0 : Nat)) : Nat × Nat × Nat).2.2
          then ((0 : Nat), (0 : Nat), extendLen (l.drop 0) (l.drop 0))
          else ((0 : Nat), (0 : Nat), (0 : Nat)))
        = ((0 : Nat), (0 : Nat), n + 1)
    rw [List.drop_zero, extendLen_self, hn]
    exact if_pos (Nat.succ_pos n)
  rw [e1]
  refine innerNoUpdate (l.drop 0) l 0 _ _ (fun j => ?_)
  have h1 := extendLen_le_left (l.drop 0) (l.drop j)
  show extendLen (l.drop 0) (l.drop j) ≤ n + 1
  rw [List.drop_zero] at h1
  rw [List.drop_zero]
  have h2 := extendLen_le_left l (l.drop j)
  omega

theorem longestMatch_self (l : List Char) (h : l ≠ []) :
    longestMatch l l = (0, 0, l.length) := by
  have hpos : 0 < l.length := List.length_pos.mpr h
  obtain ⟨n, hn⟩ : ∃ n, l.length = n + 1 := ⟨l.length - 1, by omega⟩
  unfold longestMatch
  rw [hn, List.range_succ_eq_map, List.foldl_cons]
  rw [innerFoldSelf l n hn (List.map Nat.succ (List.range n))]
  have hbound : ∀ i j, extendLen (l.drop i) (l.drop j)
      ≤ (((0 : Nat), (0 : Nat), n + 1) : Nat × Nat × Nat).2.2 := by
    intro i j
    have h1 := extendLen_le_left (l.drop i) (l.drop j)
    have h2 : (l.drop i).length ≤ l.length := by
      rw [List.length_drop]; omega
    show extendLen (l.drop i) (l.drop j) ≤ n + 1
    omega
  rw [outerNoUpdate l l (0 :: List.map Nat.succ (List.range n)) _ _ hbound]

theorem matchedAux_nil_left (fuel : Nat) (b : List Char) : matchedAux fuel [] b = 0 := by
  cases fuel with
  | zero => rfl
  | succ n =>
    rw [matchedAux]
    have hlm : longestMatch [] b = (0, 0, 0) := rfl
    simp [hlm]

theorem matched_self (l : List Char) (h : l ≠ []) : matched l l = l.length := by
  unfold matched
  rw [matchedAux]
  rw [longestMatch_self l h]
  have hpos : 0 < l.length := List.length_pos.mpr h
  have hne : ¬ ((((0 : Nat), (0 : Nat), l.length) : Nat × Nat × Nat).2.2 = 0) := by
    show ¬ (l.length = 0)
    omega
  rw [if_neg hne]
  show l.length + matchedAux l.length (l.take 0) (l.take 0)
      + matchedAux l.length (l.drop (0 + l.length)) (l.drop (0 + l.length)) = l.length
  rw [List.take_zero, List.drop_eq_nil_of_le (by omega)]
  rw [matchedAux_nil_left]
  omega

theorem ratio_self (s : String) : ratio s s = 1 := by
  unfold ratio
  split
  · rfl
  · rename_i h
    have hne : s.data ≠ [] := by
      intro he
      rw [he] at h
      exact h rfl
    rw [matched_self s.data hne]
    have hpos : 0 < s.data.length := List.length_pos.mpr hne
    have hq : (0 : ℚ) < (s.data.length : ℚ) := by exact_mod_cast hpos
    have h2 : ((s.data.length : ℚ)) + (s.data.length : ℚ) = 2 * (s.data.length : ℚ) := by ring
    rw [h2, div_self (by positivity)]

/-- `name_sim = 0; for v in variants: name_sim = max(name_sim, ratio(v, t))`,
generalized over the running value. -/
def maxFold (vs : List String) (t : String) (init : ℚ) : ℚ :=
  vs.foldl (fun m v => max m (ratio v t)) init

/-- The `max`-accumulation the matcher scripts use for name similarity
against a variant set. -/
def maxSim (vs : List String) (t : String) : ℚ := maxFold vs t 0

theorem init_le_maxFold (vs : List String) (t : String) :
    ∀ init : ℚ, init ≤ maxFold vs t init := by
  induction vs with
  | nil => intro init; exact le_refl _
  | cons v vs ih =>
    intro init
    calc init ≤ max init (ratio v t) := le_max_left _ _
    _ ≤ maxFold vs t (max init (ratio v t)) := ih _

theorem ratio_le_maxFold (vs : List String) (t : String) :
    ∀ init : ℚ, ∀ v ∈ vs, ratio v t ≤ maxFold vs t init := by
  induction vs with
  | nil => intro init v hv; exact absurd hv (List.not_mem_nil v)
  | cons w vs ih =>
    intro init v hv
    rcases List.mem_cons.mp hv with h | h
    · subst h
      calc ratio v t ≤ max init (ratio v t) := le_max_right _ _
      _ ≤ maxFold vs t _ := init_le_maxFold _ _ _
    · exact ih _ v h

theorem maxFold_le (vs : List String) (t : String) :
    ∀ init B : ℚ, init ≤ B → (∀ v ∈ vs, ratio v t ≤ B) → maxFold vs t init ≤ B := by
  induction vs with
  | nil => intro init B h1 _; exact h1
  | cons w vs ih =>
    intro init B h1 h2
    refine ih _ B ?_ (fun v hv => h2 v (List.mem_cons_of_mem _ hv))
    exact max_le h1 (h2 w (List.mem_cons_self _ _))

theorem maxSim_le_one (vs : List String) (t : String) : maxSim vs t ≤ 1 :=
  maxFold_le vs t 0 1 (by norm_num) (fun v _ => ratio_le_one v t)

theorem maxSim_nonneg (vs : List String) (t : String) : 0 ≤ maxSim vs t :=
  init_le_maxFold vs t 0

theorem ratio_le_maxSim (vs : List String) (t : String) (v : String) (hv : v ∈ vs) :
    ratio v t ≤ maxSim vs t :=
  ratio_le_maxFold vs t 0 v hv

/-- If the target itself is among the variants, the accumulated similarity
is exactly 1. -/
theorem maxSim_self_mem (vs : List String) (t : String) (ht : t ∈ vs) :
    maxSim vs t = 1 := by
  refine le_antisymm (maxSim_le_one vs t) ?_
  calc (1 : ℚ) = ratio t t := (ratio_self t).symm
  _ ≤ maxSim vs t := ratio_le_maxSim vs t t ht

end SeqMatcher

/-!
## `Fuzzy`: embedding of `nepsac_fuzzy_roster_matcher.py`
-/

namespace Fuzzy

/-- The module-level `NICKNAMES` dictionary (insertion order preserved). -/
def NICKNAMES : List (String × List String) :=
  [("william", ["will", "bill", "billy", "willy", "liam"]),
   ("robert", ["rob", "bob", "bobby", "robbie"]),
   ("richard", ["rick", "dick", "rich", "richie"]),
   ("michael", ["mike", "mikey", "mick"]),
   ("james", ["jim", "jimmy", "jamie"]),
   ("john", ["jack", "johnny", "jon"]),
   ("thomas", ["tom", "tommy"]),
   ("christopher", ["chris", "kit"]),
   ("matthew", ["matt", "matty"]),
   ("nicholas", ["nick", "nicky"]),
   ("alexander", ["alex", "xander"]),
   ("benjamin", ["ben", "benny"]),
   ("samuel", ["sam", "sammy"]),
   ("daniel", ["dan", "danny"]),
   ("joseph", ["joe", "joey"]),
   ("anthony", ["tony", "ant"]),
   ("andrew", ["andy", "drew"]),
   ("joshua", ["josh"]),
   ("david", ["dave", "davey"]),
   ("edward", ["ed", "eddie", "ted", "teddy"]),
   ("charles", ["charlie", "chuck"]),
   ("timothy", ["tim", "timmy"]),
   ("patrick", ["pat", "paddy"]),
   ("nathaniel", ["nate", "nathan"]),
   ("nathan", ["nate"]),
   ("jonathan", ["jon", "jonny"]),
   ("zachary", ["zach", "zack"]),
   ("cameron", ["cam"]),
   ("jacob", ["jake"]),
   ("maxwell", ["max"]),
   ("owen", ["o"]),
   ("ryan", ["ry"]),
   ("tyler", ["ty"]),
   ("connor", ["con"]),
   ("lucas", ["luke"]),
   ("ethan", ["eth"]),
   ("logan", ["log"]),
   ("aidan", ["aiden", "aid"]),
   ("aiden", ["aidan", "aid"]),
   ("dylan", ["dyl"]),
   ("cole", ["coley"]),
   ("brady", ["brade"]),
   ("hunter", ["hunt"]),
   ("mason", ["mase"]),
   ("luca", ["luke"]),
   ("sebastian", ["seb", "bastian"])]

/-- `re.sub(r'\s+', ' ', s)`: collapse every whitespace run to a single
space (a run at either end becomes a single space; this regex does not
trim). -/
def collapseWs : List Char → List Char
  | [] => []
  | [c] => if Py.isSpace c then [' '] else [c]
  | c1 :: c2 :: rest =>
    if Py.isSpace c1 && Py.isSpace c2 then collapseWs (c2 :: rest)
    else (if Py.isSpace c1 then ' ' else c1) :: collapseWs (c2 :: rest)

/-- `normalize_name`: lower, strip, drop `[^\w\s]`, collapse `\s+` to one
space.  (`re.sub(r'[^\w\s]', '', ...)` keeps word characters — letters,
digits, underscore — and whitespace; it removes hyphens and all other
punctuation and does not touch suffix tokens such as `jr`.) -/
def normalize_name (name : String) : String :=
  if name = "" then ""
  else ⟨collapseWs (((Py.strip (Py.lower name)).data).filter
    (fun c => Py.isWordChar c || Py.isSpace c))⟩

/-- Append the surname tokens back behind a substituted first token:
`nick + ' ' + ' '.join(parts[1:]) if len(parts) > 1 else nick`. -/
def joinTail (tok : String) (restTokens : List String) : String :=
  if restTokens = [] then tok else tok ++ " " ++ " ".intercalate restTokens

/-- `get_name_variants`: the name itself, plus every nickname substitution
of the first token (canonical forms and sibling nicknames).  The Python
set is modelled as a list; only membership matters downstream. -/
def get_name_variants (name : String) : List String :=
  match Py.split name with
  | [] => [name]
  | first :: restTokens =>
    NICKNAMES.foldl (fun variants p =>
      if first = p.1 then
        variants ++ p.2.map (fun nick => joinTail nick restTokens)
      else if first ∈ p.2 then
        variants ++ [joinTail p.1 restTokens]
          ++ (p.2.filter (fun nick => nick ≠ first)).map (fun nick => joinTail nick restTokens)
      else variants) [name]

/-- `similarity(a, b)` — `SequenceMatcher(None, a, b).ratio()`. -/
def similarity (a b : String) : ℚ := SeqMatcher.ratio a b

/-- Shared year-range / century fixup of `extract_birth_year_from_dob`. -/
def checkYear (year : Nat) : Option Int :=
  let y := if year < 100 then year + 2000 else year
  if 1990 ≤ y ∧ y ≤ 2015 then some (y : Int) else none

/-- Regex `(\d{4})$`: four digits at the end of the string. -/
def patEnd4 (l : List Char) : Option Nat :=
  let t := l.drop (l.length - 4)
  if l.length ≥ 4 && t.all Char.isDigit then some (Py.digitsVal t) else none

/-- Regex `^(\d{4})`: four digits at the start. -/
def patStart4 (l : List Char) : Option Nat :=
  let t := l.take 4
  if l.length ≥ 4 && t.all Char.isDigit then some (Py.digitsVal t) else none

/-- Regex `sep(\d{4})`: leftmost separator followed by four digits. -/
def patSep4 (sep : Char) : List Char → Option Nat
  | [] => none
  | c :: rest =>
    if c = sep && rest.length ≥ 4 && (rest.take 4).all Char.isDigit
    then some (Py.digitsVal (rest.take 4))
    else patSep4 sep rest

/-- Regex `/(\d{2})$`: a slash followed by exactly two digits at the end. -/
def patSlash2End (l : List Char) : Option Nat :=
  let t := l.drop (l.length - 2)
  if l.length ≥ 3 && l.getD (l.length - 3) ' ' = '/' && t.all Char.isDigit
  then some (Py.digitsVal t) else none

/-- Try the DOB patterns in order; a pattern whose year is out of the
1990–2015 window falls through to the next pattern. -/
def tryPatterns : List (Option Nat) → Option Int
  | [] => none
  | o :: rest =>
    match o with
    | some year =>
      match checkYear year with
      | some y => some y
      | none => tryPatterns rest
    | none => tryPatterns rest

/-- `extract_birth_year_from_dob`. -/
def extract_birth_year_from_dob (dob : String) : Option Int :=
  if dob = "" then none
  else
    tryPatterns [patEnd4 dob.data, patStart4 dob.data, patSep4 '/' dob.data,
      patSep4 '-' dob.data, patSlash2End dob.data]

/-- `extract_birth_year_from_grad`: `int(grad_str)`, and `grad - 18` when
the graduation year lies in 2020–2035; every failure path returns `None`. -/
def extract_birth_year_from_grad (grad : String) : Option Int :=
  if grad = "" then none
  else
    match Py.parseInt grad with
    | some g => if 2020 ≤ g ∧ g ≤ 2035 then some (g - 18) else none
    | none => none

/-- A row of `load_database_players` (`player_id`, `player_name`,
`total_points`, `yearOfBirth`, `latestStats_team_name`). -/
structure DbPlayer where
  player_id : Nat
  name : String
  total_points : ℚ
  birth_year : Option Int
  team : String
deriving DecidableEq, Repr

/-- The blocking index: a Python dict in insertion order. -/
abbrev Index := List (String × List DbPlayer)

/-- `index[key].append(p)`, creating the bucket on first use. -/
def indexInsert (idx : Index) (key : String) (p : DbPlayer) : Index :=
  match idx with
  | [] => [(key, [p])]
  | (k, ps) :: rest =>
    if k = key then (k, ps ++ [p]) :: rest else (k, ps) :: indexInsert rest key p

/-- Dict lookup returning the stored bucket. -/
def indexFind (idx : Index) (key : String) : Option (List DbPlayer) :=
  match idx with
  | [] => none
  | (k, ps) :: rest => if k = key then some ps else indexFind rest key

/-- Replace the bucket stored under `key`. -/
def indexSet (idx : Index) (key : String) (val : List DbPlayer) : Index :=
  idx.map (fun kv => if kv.1 = key then (kv.1, val) else kv)

/-- `key = last[:3] if len(last) >= 3 else last`. -/
def blockKey (last : String) : String :=
  if last.length ≥ 3 then last.take 3 else last

/-- `build_index`: bucket each player under the first three characters of
the normalized last name. -/
def build_index (db : List DbPlayer) : Index :=
  db.foldl (fun idx p =>
    let name := normalize_name p.name
    if name = "" then idx
    else
      match (Py.split name).getLast? with
      | none => idx
      | some last => indexInsert idx (blockKey last) p) []

/-- The buckets appended by the fuzzy block expansion
(`for k in index: if k != key and similarity(k, key) > 0.6`). -/
def fuzzyExtra (idx : Index) (key : String) : List DbPlayer :=
  (idx.filter (fun kv => kv.1 ≠ key && similarity kv.1 key > 3/5)).foldl
    (fun acc kv => acc ++ kv.2) []

/-- Lines 225–234 of `find_best_match`.  `candidates = index.get(key, [])`
aliases the stored bucket, and `candidates.extend(index[k])` therefore
mutates the index in place whenever `key` is present; the updated index is
returned explicitly here.  When no candidate was collected the search
falls back to `db_players[:5000]` (a rebinding, not a mutation). -/
def lookupCandidates (db : List DbPlayer) (idx : Index) (key : String) :
    List DbPlayer × Index :=
  let extra := fuzzyExtra idx key
  match indexFind idx key with
  | some bucket =>
    let newBucket := bucket ++ extra
    (if newBucket = [] then db.take 5000 else newBucket, indexSet idx key newBucket)
  | none =>
    (if extra = [] then db.take 5000 else extra, idx)

/-- Birth-year adjustment of the scoring loop.  The Python guard
`if roster_birth_year and db_player.get('birth_year')` treats `None` and
`0` as falsy. -/
def yearAdj (ry : Option Int) (dbYear : Option Int) : ℚ :=
  match ry, dbYear with
  | some r, some b =>
    if r = 0 ∨ b = 0 then 0
    else
      let d := (r - b).natAbs
      if d = 0 then 1/5 else if d = 1 then 1/10 else if d > 2 then -(1/10) else 0
  | _, _ => 0

/-- Team-similarity adjustment of the scoring loop (`0.1 * team_sim` when
both teams are nonempty and the similarity exceeds `0.5`). -/
def teamAdj (rteam dbteam : String) : ℚ :=
  if rteam ≠ "" ∧ dbteam ≠ "" then
    let ts := similarity rteam dbteam
    if ts > 1/2 then (1/10) * ts else 0
  else 0

/-- Total secondary adjustment applied after the name-similarity base
score (the `score += ...` statements, summed; exact in `ℚ`). -/
def adjustment (ry : Option Int) (rteam : String) (p : DbPlayer) : ℚ :=
  yearAdj ry p.birth_year + teamAdj rteam (Py.lower p.team)

/-- Best name similarity of a candidate against all query variants. -/
def nameSim (variants : List String) (p : DbPlayer) : ℚ :=
  SeqMatcher.maxSim variants (normalize_name p.name)

/-- One iteration of the scoring loop body: `none` when the candidate is
skipped (`continue`), otherwise the candidate's final score. -/
def evalScore (variants : List String) (ry : Option Int) (rteam : String)
    (p : DbPlayer) : Option ℚ :=
  let db_name := normalize_name p.name
  if db_name = "" then none
  else
    let name_sim := SeqMatcher.maxSim variants db_name
    if name_sim < 3/5 then none
    else some (name_sim * (7/10) + adjustment ry rteam p)

/-- `if score > best_score: best_score, best_match = score, db_player`. -/
def scanStep (variants : List String) (ry : Option Int) (rteam : String)
    (acc : Option DbPlayer × ℚ) (p : DbPlayer) : Option DbPlayer × ℚ :=
  match evalScore variants ry rteam p with
  | none => acc
  | some s => if s > acc.2 then (some p, s) else acc

/-- The scoring loop of `find_best_match` over an explicit candidate list,
starting from `best_match = None, best_score = 0`. -/
def scanCandidates (variants : List String) (ry : Option Int) (rteam : String)
    (cands : List DbPlayer) : Option DbPlayer × ℚ :=
  cands.foldl (scanStep variants ry rteam) (none, 0)

/-- A row of the roster CSV. -/
structure RosterPlayer where
  name : String
  dob : String
  grad_year : String
  team : String
deriving DecidableEq, Repr

/-- DOB first, graduation year as fallback (`if not roster_birth_year`;
neither extractor can return `0`, so option-fallback is faithful). -/
def rosterYear (rp : RosterPlayer) : Option Int :=
  match extract_birth_year_from_dob rp.dob with
  | some y => some y
  | none => extract_birth_year_from_grad rp.grad_year

/-- Candidate assembly of `find_best_match` (early returns for an empty
normalized name or an empty token list yield no candidates and leave the
index untouched). -/
def queryCandidates (rp : RosterPlayer) (db : List DbPlayer) (idx : Index) :
    List DbPlayer × Index :=
  let roster_name := normalize_name rp.name
  if roster_name = "" then ([], idx)
  else
    match (Py.split roster_name).getLast? with
    | none => ([], idx)
    | some last => lookupCandidates db idx (blockKey last)

/-- `find_best_match(roster_player, db_players, index)`; the mutated index
is returned alongside the `(best_match, best_score)` pair. -/
def find_best_match (rp : RosterPlayer) (db : List DbPlayer) (idx : Index) :
    (Option DbPlayer × ℚ) × Index :=
  let ci := queryCandidates rp db idx
  (scanCandidates (get_name_variants (normalize_name rp.name)) (rosterYear rp)
    (Py.lower rp.team) ci.1, ci.2)

/-- The confidence classification in `main` (lines 313–342):
accepted when `match and score >= 0.65`, then `HIGH`/`MEDIUM`/`LOW` by
`0.85`/`0.75`. -/
def classify (m : Option DbPlayer) (score : ℚ) : String :=
  match m with
  | some _ =>
    if score ≥ 13/20 then
      if score ≥ 17/20 then "HIGH" else if score ≥ 3/4 then "MEDIUM" else "LOW"
    else "NO_MATCH"
  | none => "NO_MATCH"

theorem scan_no_update (variants : List String) (ry : Option Int) (rteam : String) :
    ∀ (l : List DbPlayer) (acc : Option DbPlayer × ℚ),
      (∀ p ∈ l, ∀ s, evalScore variants ry rteam p = some s → s ≤ acc.2) →
      l.foldl (scanStep variants ry rteam) acc = acc := by
  intro l
  induction l with
  | nil => intro acc h; rfl
  | cons p t ih =>
    intro acc h
    rw [List.foldl_cons]
    have hstep : scanStep variants ry rteam acc p = acc := by
      unfold scanStep
      cases he : evalScore variants ry rteam p with
      | none => rfl
      | some s =>
        have hs := h p (List.mem_cons_self _ _) s he
        simp only [gt_iff_lt]
        rw [if_neg (not_lt.mpr hs)]
    rw [hstep]
    exact ih acc (fun q hq s hs => h q (List.mem_cons_of_mem _ hq) s hs)

theorem scan_snd_mono (variants : List String) (ry : Option Int) (rteam : String) :
    ∀ (l : List DbPlayer) (acc : Option DbPlayer × ℚ),
      acc.2 ≤ (l.foldl (scanStep variants ry rteam) acc).2 := by
  intro l
  induction l with
  | nil => intro acc; exact le_refl _
  | cons p t ih =>
    intro acc
    rw [List.foldl_cons]
    refine le_trans ?_ (ih (scanStep variants ry rteam acc p))
    unfold scanStep
    cases he : evalScore variants ry rteam p with
    | none => exact le_refl _
    | some s =>
      dsimp only
      split
      · rename_i hgt
        exact le_of_lt hgt
      · exact le_refl _

theorem scan_le (variants : List String) (ry : Option Int) (rteam : String) (B : ℚ) :
    ∀ (l : List DbPlayer) (acc : Option DbPlayer × ℚ),
      acc.2 ≤ B →
      (∀ p ∈ l, ∀ s, evalScore variants ry rteam p = some s → s ≤ B) →
      (l.foldl (scanStep variants ry rteam) acc).2 ≤ B := by
  intro l
  induction l with
  | nil => intro acc h _; exact h
  | cons p t ih =>
    intro acc hacc h
    rw [List.foldl_cons]
    refine ih _ ?_ (fun q hq s hs => h q (List.mem_cons_of_mem _ hq) s hs)
    unfold scanStep
    cases he : evalScore variants ry rteam p with
    | none => exact hacc
    | some s =>
      dsimp only
      split
      · exact h p (List.mem_cons_self _ _) s he
      · exact hacc

theorem scan_ge (variants : List String) (ry : Option Int) (rteam : String) :
    ∀ (l : List DbPlayer) (acc : Option DbPlayer × ℚ) (p : DbPlayer) (s : ℚ),
      p ∈ l → evalScore variants ry rteam p = some s →
      s ≤ (l.foldl (scanStep variants ry rteam) acc).2 := by
  intro l
  induction l with
  | nil => intro acc p s hp _; exact absurd hp (List.not_mem_nil p)
  | cons q t ih =>
    intro acc p s hp hs
    rw [List.foldl_cons]
    rcases List.mem_cons.mp hp with h | h
    · subst h
      refine le_trans ?_ (scan_snd_mono variants ry rteam t _)
      unfold scanStep
      rw [hs]
      dsimp only
      split
      · exact le_refl _
      · rename_i hng
        exact le_of_not_lt hng
    · exact ih _ p s h hs

theorem scan_some_stays (variants : List String) (ry : Option Int) (rteam : String) :
    ∀ (l : List DbPlayer) (acc : Option DbPlayer × ℚ),
      acc.1.isSome → (l.foldl (scanStep variants ry rteam) acc).1.isSome := by
  intro l
  induction l with
  | nil => intro acc h; exact h
  | cons p t ih =>
    intro acc h
    rw [List.foldl_cons]
    refine ih _ ?_
    unfold scanStep
    cases evalScore variants ry rteam p with
    | none => exact h
    | some s =>
      dsimp only
      split
      · rfl
      · exact h

theorem scan_moved_isSome (variants : List String) (ry : Option Int) (rteam : String) :
    ∀ (l : List DbPlayer) (acc : Option DbPlayer × ℚ),
      (l.foldl (scanStep variants ry rteam) acc).2 ≠ acc.2 →
      (l.foldl (scanStep variants ry rteam) acc).1.isSome := by
  intro l
  induction l with
  | nil => intro acc h; exact absurd rfl h
  | cons p t ih =>
    intro acc h
    rw [List.foldl_cons] at h ⊢
    cases he : evalScore variants ry rteam p with
    | none =>
      have hstep : scanStep variants ry rteam acc p = acc := by
        unfold scanStep
        rw [he]
      rw [hstep] at h ⊢
      exact ih acc h
    | some s =>
      by_cases hgt : s > acc.2
      · have hstep : scanStep variants ry rteam acc p = (some p, s) := by
          unfold scanStep
          rw [he]
          dsimp only
          rw [if_pos hgt]
        rw [hstep] at h ⊢
        exact scan_some_stays variants ry rteam t _ rfl
      · have hstep : scanStep variants ry rteam acc p = acc := by
          unfold scanStep
          rw [he]
          dsimp only
          rw [if_neg hgt]
        rw [hstep] at h ⊢
        exact ih acc h

theorem scan_argmax (variants : List String) (ry : Option Int) (rteam : String) :
    ∀ (l : List DbPlayer) (acc : Option DbPlayer × ℚ) (x : DbPlayer) (sx : ℚ),
      x ∈ l → evalScore variants ry rteam x = some sx → acc.2 < sx →
      (∀ y ∈ l, y ≠ x → ∀ s, evalScore variants ry rteam y = some s → s < sx) →
      l.foldl (scanStep variants ry rteam) acc = (some x, sx) := by
  intro l
  induction l with
  | nil => intro acc x sx hx _ _ _; exact absurd hx (List.not_mem_nil x)
  | cons p t ih =>
    intro acc x sx hx hex hacc hriv
    rw [List.foldl_cons]
    by_cases hpx : p = x
    · subst hpx
      have hstep : scanStep variants ry rteam acc p = (some p, sx) := by
        unfold scanStep
        rw [hex]
        dsimp only
        rw [if_pos hacc]
      rw [hstep]
      refine scan_no_update variants ry rteam t (some p, sx) ?_
      intro q hq s hs
      by_cases hqx : q = p
      · subst hqx
        rw [hex] at hs
        exact le_of_eq (Option.some.inj hs).symm
      · exact le_of_lt (hriv q (List.mem_cons_of_mem _ hq) hqx s hs)
    · have hxt : x ∈ t := by
        rcases List.mem_cons.mp hx with h | h
        · exact absurd h.symm hpx
        · exact h
      have hacc2 : (scanStep variants ry rteam acc p).2 < sx := by
        unfold scanStep
        cases he : evalScore variants ry rteam p with
        | none => exact hacc
        | some s =>
          dsimp only
          split
          · exact hriv p (List.mem_cons_self _ _) hpx s he
          · exact hacc
      exact ih _ x sx hxt hex hacc2
        (fun y hy hyx s hs => hriv y (List.mem_cons_of_mem _ hy) hyx s hs)

theorem yearAdj_lb (ry dbYear : Option Int) : -(1/10 : ℚ) ≤ yearAdj ry dbYear := by
  unfold yearAdj
  cases ry with
  | none => norm_num
  | some r =>
    cases dbYear with
    | none => norm_num
    | some b =>
      dsimp only
      split
      · norm_num
      · split
        · norm_num
        · split
          · norm_num
          · split
            · norm_num
            · norm_num

theorem teamAdj_nonneg (rteam dbteam : String) : 0 ≤ teamAdj rteam dbteam := by
  unfold teamAdj
  split
  · dsimp only
    split
    · have h := SeqMatcher.ratio_nonneg rteam dbteam
      unfold similarity at *
      positivity
    · norm_num
  · norm_num

theorem adjustment_lb (ry : Option Int) (rteam : String) (p : DbPlayer) :
    -(1/10 : ℚ) ≤ adjustment ry rteam p := by
  unfold adjustment
  have h1 := yearAdj_lb ry p.birth_year
  have h2 := teamAdj_nonneg rteam (Py.lower p.team)
  linarith

theorem adjustment_no_hints (rteam : String) (p : DbPlayer) (h : rteam = "") :
    adjustment none rteam p = 0 := by
  unfold adjustment yearAdj teamAdj
  subst h
  norm_num

/-- The inspected name is always one of its own variants (`variants = {name}`
is the starting set of `get_name_variants`). -/
theorem mem_get_name_variants_self (name : String) : name ∈ get_name_variants name := by
  unfold get_name_variants
  cases hs : Py.split name with
  | nil => exact List.mem_singleton.mpr rfl
  | cons first restTokens =>
    have hgen : ∀ (tbl : List (String × List String)) (init : List String),
        name ∈ init →
        name ∈ tbl.foldl (fun variants p =>
          if first = p.1 then
            variants ++ p.2.map (fun nick => joinTail nick restTokens)
          else if first ∈ p.2 then
            variants ++ [joinTail p.1 restTokens]
              ++ (p.2.filter (fun nick => nick ≠ first)).map
                (fun nick => joinTail nick restTokens)
          else variants) init := by
      intro tbl
      induction tbl with
      | nil => intro init h; exact h
      | cons q t ih =>
        intro init h
        rw [List.foldl_cons]
        refine ih _ ?_
        dsimp only
        split
        · exact List.mem_append_left _ h
        · split
          · exact List.mem_append_left _ (List.mem_append_left _ h)
          · exact h
    exact hgen NICKNAMES [name] (List.mem_singleton.mpr rfl)

/-- An exact-normalized-name candidate scores exactly
`0.7 + adjustment`. -/
theorem evalScore_exact (qname : String) (ry : Option Int) (rteam : String)
    (x : DbPlayer) (hxname : normalize_name x.name = qname) (hqne : qname ≠ "") :
    evalScore (get_name_variants qname) ry rteam x
      = some (7/10 + adjustment ry rteam x) := by
  unfold evalScore
  rw [hxname]
  rw [if_neg hqne]
  have hsim : SeqMatcher.maxSim (get_name_variants qname) qname = 1 :=
    SeqMatcher.maxSim_self_mem _ _ (mem_get_name_variants_self qname)
  rw [hsim]
  rw [if_neg (by norm_num)]
  norm_num

/-- Any accepted candidate's score is its name similarity times `0.7` plus
its adjustment, with the similarity at most 1. -/
theorem evalScore_le (variants : List String) (ry : Option Int) (rteam : String)
    (p : DbPlayer) (s : ℚ) (hs : evalScore variants ry rteam p = some s) :
    s ≤ 7/10 + adjustment ry rteam p := by
  unfold evalScore at hs
  by_cases h1 : normalize_name p.name = ""
  · rw [if_pos h1] at hs
    exact absurd hs (by simp)
  · rw [if_neg h1] at hs
    by_cases h2 : SeqMatcher.maxSim variants (normalize_name p.name) < 3/5
    · rw [if_pos h2] at hs
      exact absurd hs (by simp)
    · rw [if_neg h2] at hs
      have he := Option.some.inj hs
      have hub := SeqMatcher.maxSim_le_one variants (normalize_name p.name)
      have hm : SeqMatcher.maxSim variants (normalize_name p.name) * (7/10)
          ≤ 1 * (7/10) :=
        mul_le_mul_of_nonneg_right hub (by norm_num)
      rw [← he]
      linarith

/-- An accepted candidate's score decomposes as similarity times `0.7`
plus its secondary adjustment. -/
theorem evalScore_some_eq (variants : List String) (ry : Option Int) (rteam : String)
    (p : DbPlayer) (s : ℚ) (hs : evalScore variants ry rteam p = some s) :
    s = SeqMatcher.maxSim variants (normalize_name p.name) * (7/10)
      + adjustment ry rteam p := by
  unfold evalScore at hs
  by_cases h1 : normalize_name p.name = ""
  · rw [if_pos h1] at hs
    exact absurd hs (by simp)
  · rw [if_neg h1] at hs
    by_cases h2 : SeqMatcher.maxSim variants (normalize_name p.name) < 3/5
    · rw [if_pos h2] at hs
      exact absurd hs (by simp)
    · rw [if_neg h2] at hs
      exact (Option.some.inj hs).symm

/-- Every character surviving whitespace collapse is either the space the
run was replaced with, or a non-whitespace character of the input. -/
theorem collapseWs_chars : ∀ (l : List Char), ∀ c ∈ collapseWs l,
    c = ' ' ∨ (c ∈ l ∧ Py.isSpace c = false) := by
  intro l
  induction l with
  | nil => intro c hc; exact absurd hc (List.not_mem_nil c)
  | cons c1 rest ih =>
    cases rest with
    | nil =>
      intro c hc
      unfold collapseWs at hc
      split at hc
      · left
        exact List.mem_singleton.mp hc
      · rename_i hns
        right
        have he : c = c1 := List.mem_singleton.mp hc
        subst he
        exact ⟨List.mem_cons_self _ _, Bool.not_eq_true _ ▸ eq_false_of_ne_true hns⟩
    | cons c2 rest2 =>
      intro c hc
      unfold collapseWs at hc
      split at hc
      · rcases ih c hc with h | ⟨hm, hs⟩
        · exact Or.inl h
        · exact Or.inr ⟨List.mem_cons_of_mem _ hm, hs⟩
      · rcases List.mem_cons.mp hc with h | h
        · subst h
          by_cases hsp : Py.isSpace c1 = true
        -- the head is `if isSpace c1 then ' ' else c1`
          · rw [if_pos hsp]
            exact Or.inl rfl
          · rw [if_neg hsp]
            exact Or.inr ⟨List.mem_cons_self _ _, eq_false_of_ne_true hsp⟩
        · rcases ih c h with h2 | ⟨hm, hs⟩
          · exact Or.inl h2
          · exact Or.inr ⟨List.mem_cons_of_mem _ hm, hs⟩

/-- Every character of a normalized name is a space or a non-uppercase
word character (letter, digit or underscore). -/
theorem normalize_name_chars (s : String) :
    ∀ c ∈ (normalize_name s).data, c = ' ' ∨ (Py.isWordChar c = true ∧ c.isUpper = false) := by
  unfold normalize_name
  split
  · intro c hc
    exact absurd hc (List.not_mem_nil c)
  · intro c hc
    have hc2 : c ∈ collapseWs ((Py.strip (Py.lower s)).data.filter
        (fun c => Py.isWordChar c || Py.isSpace c)) := hc
    rcases collapseWs_chars _ c hc2 with h | ⟨hmem, hns⟩
    · exact Or.inl h
    · right
      obtain ⟨hin, hpred⟩ := List.mem_filter.mp hmem
      have hw : Py.isWordChar c = true := by
        rcases Bool.or_eq_true _ _ |>.mp hpred with h | h
        · exact h
        · rw [hns] at h
          exact absurd h (by simp)
      refine ⟨hw, ?_⟩
      have h1 : c ∈ Py.stripList (Py.lower s).data := hin
      unfold Py.stripList at h1
      rw [List.mem_reverse] at h1
      have h4 := (List.dropWhile_sublist _).subset h1
      rw [List.mem_reverse] at h4
      have h5 := (List.dropWhile_sublist _).subset h4
      obtain ⟨c0, hc0, hmapeq⟩ := List.mem_map.mp h5
      rw [← hmapeq]
      exact Py.toLower_not_upper c0

/-- The classifier never reports HIGH or MEDIUM for a score at most 0.7. -/
theorem classify_low_cap (m : Option DbPlayer) (s : ℚ) (h : s ≤ 7/10) :
    classify m s ≠ "HIGH" ∧ classify m s ≠ "MEDIUM" := by
  unfold classify
  cases m with
  | none => exact ⟨by simp, by simp⟩
  | some v =>
    dsimp only
    split_ifs with h1 h2 h3
    · exfalso; linarith
    · exfalso; linarith
    · exact ⟨by decide, by decide⟩
    · exact ⟨by decide, by decide⟩

end Fuzzy

/-!
## `Fast`: embedding of `nepsac_fuzzy_roster_matcher_fast.py`
-/

namespace Fast

/-- The fast script's `NICKNAMES` table (smaller than the other script's:
no `owen`/`ethan`/`logan`/`dylan`/`brady`/`hunter`/`mason`, `aidan`/`aiden`
without `aid`, `sebastian` without `bastian`). -/
def NICKNAMES : List (String × List String) :=
  [("william", ["will", "bill", "billy", "willy", "liam"]),
   ("robert", ["rob", "bob", "bobby", "robbie"]),
   ("richard", ["rick", "dick", "rich", "richie"]),
   ("michael", ["mike", "mikey", "mick"]),
   ("james", ["jim", "jimmy", "jamie"]),
   ("john", ["jack", "johnny", "jon"]),
   ("thomas", ["tom", "tommy"]),
   ("christopher", ["chris", "kit"]),
   ("matthew", ["matt", "matty"]),
   ("nicholas", ["nick", "nicky"]),
   ("alexander", ["alex", "xander"]),
   ("benjamin", ["ben", "benny"]),
   ("samuel", ["sam", "sammy"]),
   ("daniel", ["dan", "danny"]),
   ("joseph", ["joe", "joey"]),
   ("anthony", ["tony", "ant"]),
   ("andrew", ["andy", "drew"]),
   ("joshua", ["josh"]),
   ("david", ["dave", "davey"]),
   ("edward", ["ed", "eddie", "ted", "teddy"]),
   ("charles", ["charlie", "chuck"]),
   ("timothy", ["tim", "timmy"]),
   ("patrick", ["pat", "paddy"]),
   ("nathaniel", ["nate", "nathan"]),
   ("nathan", ["nate"]),
   ("jonathan", ["jon", "jonny"]),
   ("zachary", ["zach", "zack"]),
   ("cameron", ["cam"]),
   ("jacob", ["jake"]),
   ("maxwell", ["max"]),
   ("ryan", ["ry"]),
   ("tyler", ["ty"]),
   ("connor", ["con"]),
   ("lucas", ["luke"]),
   ("aidan", ["aiden"]),
   ("aiden", ["aidan"]),
   ("cole", ["coley"]),
   ("luca", ["luke"]),
   ("sebastian", ["seb"])]

/-- Association-list lookup in a string table. -/
def tblFind : List (String × List String) → String → Option (List String)
  | [], _ => none
  | (k, vs) :: rest, key => if k = key then some vs else tblFind rest key

/-- `NICKNAME_TO_FULL[nick].append(full)`, creating the entry on first use. -/
def addRev (m : List (String × List String)) (nick full : String) :
    List (String × List String) :=
  match m with
  | [] => [(nick, [full])]
  | (k, fs) :: rest =>
    if k = nick then (k, fs ++ [full]) :: rest else (k, fs) :: addRev rest nick full

/-- The module-level reverse map `NICKNAME_TO_FULL` built from `NICKNAMES`. -/
def NICKNAME_TO_FULL : List (String × List String) :=
  NICKNAMES.foldl (fun m p => p.2.foldl (fun m nick => addRev m nick p.1) m) []

/-- `get_first_name_variants`: the token, its canonical full forms (when it
is a nickname), and its registered nicknames (when it is canonical); note
this script does NOT add sibling nicknames. -/
def get_first_name_variants (first : String) : List String :=
  let v1 := [first]
  let v2 := match tblFind NICKNAME_TO_FULL first with
    | some fulls => v1 ++ fulls
    | none => v1
  match tblFind NICKNAMES first with
  | some nicks => v2 ++ nicks
  | none => v2

/-- `similarity(a, b)` — same `SequenceMatcher` ratio as the other script. -/
def similarity (a b : String) : ℚ := SeqMatcher.ratio a b

/-- `extract_birth_year_from_grad` — textually identical to the other
script's. -/
def extract_birth_year_from_grad (grad : String) : Option Int :=
  if grad = "" then none
  else
    match Py.parseInt grad with
    | some g => if 2020 ≤ g ∧ g ≤ 2035 then some (g - 18) else none
    | none => none

/-- A row of the fast script's `load_database_players` (name normalized at
load time). -/
structure FPlayer where
  player_id : Nat
  name : String
  name_normalized : String
  total_points : ℚ
  birth_year : Option Int
  team : String
deriving DecidableEq, Repr

/-- The fast blocking index (dict in insertion order). -/
abbrev FIndex := List (String × List FPlayer)

/-- `index[key].append(p)`, creating the bucket on first use. -/
def finsert (idx : FIndex) (key : String) (p : FPlayer) : FIndex :=
  match idx with
  | [] => [(key, [p])]
  | (k, ps) :: rest =>
    if k = key then (k, ps ++ [p]) :: rest else (k, ps) :: finsert rest key p

/-- `index.get(key, [])` (no aliasing is exercised by this script's
lookup: it only reads). -/
def fget : FIndex → String → List FPlayer
  | [], _ => []
  | (k, ps) :: rest, key => if k = key then ps else fget rest key

/-- `build_index`: bucket under the full normalized last name AND its
3-character prefix (when the prefix differs). -/
def build_index (db : List FPlayer) : FIndex :=
  db.foldl (fun idx p =>
    let name := p.name_normalized
    if name = "" then idx
    else
      match (Py.split name).getLast? with
      | none => idx
      | some last =>
        let idx1 := finsert idx last p
        let key3 := if last.length ≥ 3 then last.take 3 else last
        if key3 ≠ last then finsert idx1 key3 p else idx1) []

/-- First-occurrence dedupe by `player_id` (`seen` set threaded through). -/
def dedupe : List FPlayer → List Nat → List FPlayer
  | [], _ => []
  | p :: rest, seen =>
    if p.player_id ∈ seen then dedupe rest seen
    else p :: dedupe rest (p.player_id :: seen)

/-- Birth-year adjustment (same shape as the other script but with a
`-0.15` penalty beyond two years). -/
def yearAdj (ry : Option Int) (dbYear : Option Int) : ℚ :=
  match ry, dbYear with
  | some r, some b =>
    if r = 0 ∨ b = 0 then 0
    else
      let d := (r - b).natAbs
      if d = 0 then 1/5 else if d = 1 then 1/10 else if d > 2 then -(3/20) else 0
  | _, _ => 0

/-- Team-similarity adjustment (`0.1 * team_sim` when both nonempty and
similarity exceeds 0.5). -/
def teamAdj (rteam dbteam : String) : ℚ :=
  if rteam ≠ "" ∧ dbteam ≠ "" then
    let ts := similarity rteam dbteam
    if ts > 1/2 then (1/10) * ts else 0
  else 0

/-- The last token of a candidate's pre-normalized name. -/
def dbLast (p : FPlayer) : String := ((Py.split p.name_normalized).getLast?).getD ""

/-- One iteration of the fast scoring loop: `none` when the candidate is
skipped.  The surname gate (`if last_sim < 0.7: continue`) fires before
the given-name gate and before any birth-year or team signal is read. -/
def scoreCandidateFast (fv : List String) (ln : String) (ry : Option Int)
    (rt : String) (p : FPlayer) : Option ℚ :=
  if p.name_normalized = "" then none
  else
    match Py.split p.name_normalized with
    | [] => none
    | db_first :: dbRest =>
      if similarity ln ((db_first :: dbRest).getLast (List.cons_ne_nil _ _)) < 7/10 then none
      else
        if SeqMatcher.maxSim fv db_first < 1/2 then none
        else
          some ((SeqMatcher.maxSim fv db_first * (2/5)
              + similarity ln ((db_first :: dbRest).getLast (List.cons_ne_nil _ _)) * (3/5))
                * (7/10)
            + yearAdj ry p.birth_year + teamAdj rt (Py.lower p.team))

/-- `find_best_match(roster_name, roster_birth_year, roster_team, index)`. -/
def find_best_match (roster_name : String) (ry : Option Int) (rteam : String)
    (idx : FIndex) : Option FPlayer × ℚ :=
  if roster_name = "" then (none, 0)
  else
    match Py.split roster_name with
    | [] => (none, 0)
    | first_name :: rest =>
      let last_name := (first_name :: rest).getLast (List.cons_ne_nil _ _)
      let first_variants := get_first_name_variants first_name
      let key3 := if last_name.length ≥ 3 then last_name.take 3 else last_name
      let pool := fget idx last_name ++ fget idx key3
      if pool = [] then (none, 0)
      else
        (dedupe pool []).foldl (fun acc p =>
          match scoreCandidateFast first_variants last_name ry rteam p with
          | none => acc
          | some s => if s > acc.2 then (some p, s) else acc) (none, 0)

end Fast

/-!
## `PM`: embedding of `nepsac_player_matcher.py`
-/

namespace PM

/-- The module-level `TEAM_ALIASES` dictionary. -/
def TEAM_ALIASES : List (String × List String) :=
  [("st. marks", ["st. mark's", "saint marks", "saint mark's", "st marks"]),
   ("st. georges", ["st. george's", "saint georges", "saint george's", "st georges"]),
   ("st. paul's", ["st. pauls", "saint paul's", "saint pauls", "st paul's school"]),
   ("noble & greenough", ["nobles", "noble and greenough", "noble greenough"]),
   ("bb&n", ["buckingham browne & nichols", "buckingham browne nichols"]),
   ("nmh", ["northfield mount hermon", "northfield-mount hermon"]),
   ("kua", ["kimball union", "kimball union academy"]),
   ("governor's", ["governors", "governor's academy"]),
   ("milton", ["milton academy"]),
   ("belmont hill", ["belmont hill school"]),
   ("rivers", ["rivers school"]),
   ("thayer", ["thayer academy"]),
   ("lawrence", ["lawrence academy"]),
   ("tabor", ["tabor academy"]),
   ("brooks", ["brooks school"]),
   ("middlesex", ["middlesex school"]),
   ("groton", ["groton school"])]

/-- `levenshtein_ratio`: `SequenceMatcher` ratio of the lowercased
strings (despite the name, not Levenshtein distance). -/
def levenshtein_ratio (s1 s2 : String) : ℚ :=
  SeqMatcher.ratio (Py.lower s1) (Py.lower s2)

/-- The first-token nickname replacement table inside `normalize_name`. -/
def REPLACEMENTS : List (String × String) :=
  [("william", "will"), ("billy", "will"), ("bill", "will"),
   ("robert", "rob"), ("bob", "rob"), ("bobby", "rob"),
   ("michael", "mike"), ("mikey", "mike"),
   ("james", "jim"), ("jimmy", "jim"), ("jamie", "james"),
   ("thomas", "tom"), ("tommy", "tom"),
   ("richard", "rich"), ("rick", "rich"), ("dick", "rich"),
   ("christopher", "chris"),
   ("nicholas", "nick"), ("nicky", "nick"),
   ("alexander", "alex"),
   ("benjamin", "ben"),
   ("matthew", "matt"),
   ("daniel", "dan"), ("danny", "dan"),
   ("joseph", "joe"), ("joey", "joe"),
   ("anthony", "tony"),
   ("edward", "ed"), ("eddie", "ed"), ("ted", "ed"),
   ("theodore", "theo"), ("teddy", "theo"),
   ("jonathan", "jon"), ("johnny", "jon"),
   ("patrick", "pat"),
   ("timothy", "tim"),
   ("samuel", "sam"),
   ("joshua", "josh"),
   ("zachary", "zach"),
   ("andrew", "drew"), ("andy", "drew"),
   ("cameron", "cam"),
   ("jacob", "jake"),
   ("maxwell", "max"),
   ("charles", "charlie")]

/-- Association-list lookup in the replacement table. -/
def strFind : List (String × String) → String → Option String
  | [], _ => none
  | (k, v) :: rest, key => if k = key then some v else strFind rest key

/-- This script's `normalize_name`: lower + strip, drop `.` and `'`, map
`-` to space, split, replace the first token by its table entry, rejoin
with single spaces. -/
def normalize_name (name : String) : String :=
  if name = "" then ""
  else
    let cleaned : List Char :=
      ((Py.strip (Py.lower name)).data.filter
        (fun c => !(c = '.') && !(c = '\''))).map (fun c => if c = '-' then ' ' else c)
    let parts := Py.split ⟨cleaned⟩
    let parts2 := match parts with
      | [] => ([] : List String)
      | f :: rest =>
        (match strFind REPLACEMENTS f with
         | some r => r
         | none => f) :: rest
    String.intercalate " " parts2

/-- The alias scan of `normalize_team` (first entry that matches wins,
in insertion order; `canonical in team` and `alias in team` are substring
tests, `team in aliases` is list membership). -/
def normTeamGo : List (String × List String) → String → String
  | [], t => t
  | (canonical, aliases) :: rest, t =>
    if aliases.contains t || Py.isSubstr canonical t then canonical
    else if aliases.any (fun a => Py.isSubstr a t || Py.isSubstr t a) then canonical
    else normTeamGo rest t

/-- `normalize_team`. -/
def normalize_team (team : String) : String :=
  normTeamGo TEAM_ALIASES (Py.strip (Py.lower team))

/-- `teams_match`: equality, mutual containment, or a common word longer
than three characters. -/
def teams_match (team1 team2 : String) : Bool :=
  let t1 := normalize_team team1
  let t2 := normalize_team team2
  if t1 = t2 then true
  else if Py.isSubstr t1 t2 || Py.isSubstr t2 t1 then true
  else (Py.split t1).any (fun w => (Py.split t2).contains w && w.length > 3)

/-- A NEPSAC query row (the fields `find_best_match`/`match_players`
read). -/
structure NepsacPlayer where
  player_name : String
  first_name : String
  last_name : String
  team : String
  position : String
  points : Int
deriving DecidableEq, Repr

/-- A reference row of `fetch_prodigy_players` (optional DB fields that
the script defaults with `or ''` are modelled as plain strings). -/
structure ProdigyPlayer where
  player_id : Nat
  player_name : String
  firstName : String
  lastName : String
  birth_year : Option Int
  position : String
  current_team : String
deriving DecidableEq, Repr

/-- The blocking index over 3-character lowercase last-name prefixes. -/
abbrev PIndex := List (String × List ProdigyPlayer)

/-- `index[key].append(p)`, creating the bucket on first use. -/
def pinsert (idx : PIndex) (key : String) (p : ProdigyPlayer) : PIndex :=
  match idx with
  | [] => [(key, [p])]
  | (k, ps) :: rest =>
    if k = key then (k, ps ++ [p]) :: rest else (k, ps) :: pinsert rest key p

/-- `prodigy_index.get(key, [])`. -/
def pget : PIndex → String → List ProdigyPlayer
  | [], _ => []
  | (k, ps) :: rest, key => if k = key then ps else pget rest key

/-- `build_player_index`: bucket by the first three characters of the
lowercased last name, skipping empty keys. -/
def build_player_index (players : List ProdigyPlayer) : PIndex :=
  players.foldl (fun idx p =>
    let lastname := (Py.lower p.lastName).take 3
    if lastname = "" then idx else pinsert idx lastname p) []

/-- A scored candidate (one element of the `candidates` list). -/
structure Cand where
  player : ProdigyPlayer
  score : ℚ
  reason : String
  name_sim : ℚ
  team_match : Bool
deriving DecidableEq, Repr

/-- The scoring block of `find_best_match` for one candidate: additive
integer points with a reason tag per fired signal. -/
def scoreEntry (nep : NepsacPlayer) (pr : ProdigyPlayer) : Cand :=
  let nepsac_name := normalize_name nep.player_name
  let nepsac_first := normalize_name nep.first_name
  let nepsac_last := Py.lower nep.last_name
  let pr_name := normalize_name pr.player_name
  let pr_first := normalize_name pr.firstName
  let pr_last := Py.lower pr.lastName
  let full_name_sim := levenshtein_ratio nepsac_name pr_name
  let last_name_sim := levenshtein_ratio nepsac_last pr_last
  let first_name_sim := levenshtein_ratio nepsac_first pr_first
  let tm := teams_match nep.team pr.current_team
  let s1 : ℚ × List String :=
    if full_name_sim > 19/20 then (50, ["exact_name"])
    else if full_name_sim > 17/20 then (40, ["close_name"])
    else if full_name_sim > 3/4 then (25, ["similar_name"])
    else (0, [])
  let s2 :=
    if last_name_sim > 19/20 then (s1.1 + 25, s1.2 ++ ["exact_lastname"])
    else if last_name_sim > 17/20 then (s1.1 + 15, s1.2 ++ ["close_lastname"])
    else s1
  let s3 :=
    if first_name_sim > 9/10 then (s2.1 + 15, s2.2 ++ ["exact_firstname"])
    else if first_name_sim > 7/10 then (s2.1 + 8, s2.2 ++ ["similar_firstname"])
    else s2
  let s4 := if tm then (s3.1 + 20, s3.2 ++ ["team_match"]) else s3
  let nepsac_pos := Py.upper nep.position
  let pr_pos := Py.upper pr.position
  let s5 :=
    if nepsac_pos ≠ "" ∧ pr_pos ≠ "" then
      if nepsac_pos = pr_pos then (s4.1 + 5, s4.2 ++ ["position_match"])
      else if nepsac_pos ∈ ["F", "C", "LW", "RW"] ∧ pr_pos ∈ ["F", "C", "LW", "RW"] then
        (s4.1 + 3, s4.2)
      else s4
    else s4
  ⟨pr, s5.1, String.intercalate "+" s5.2, full_name_sim, tm⟩

/-- Candidate assembly: block lookup by last-name prefix, skip
already-claimed reference ids, keep entries scoring at least 40. -/
def candidateEntries (nep : NepsacPlayer) (idx : PIndex) (claimed : List Nat) :
    List Cand :=
  let nepsac_last := Py.lower nep.last_name
  let pfx3 := if nepsac_last.length ≥ 3 then nepsac_last.take 3 else nepsac_last
  ((pget idx pfx3).filter (fun pr => !(claimed.contains pr.player_id))).filterMap
    (fun pr =>
      let e := scoreEntry nep pr
      if e.score ≥ 40 then some e else none)

/-- `candidates.sort(key=lambda x: (x['score'], x['name_sim']),
reverse=True)`: stable descending sort on the score/name-similarity
pair. -/
def sortCands (l : List Cand) : List Cand :=
  Py.pySorted (fun a b =>
    decide (b.score < a.score ∨ (b.score = a.score ∧ b.name_sim ≤ a.name_sim))) l

/-- Confidence: `min(score/100, 1)`, multiplied by 0.8 exactly when the
runner-up's score strictly exceeds 85% of the best score.  The reason tag
is not altered by this damping. -/
def dampedConf (best : Cand) (rest : List Cand) : ℚ :=
  match rest with
  | [] => min (best.score / 100) 1
  | second :: _ =>
    if second.score > best.score * (17/20) then (min (best.score / 100) 1) * (4/5)
    else min (best.score / 100) 1

/-- `find_best_match(nepsac_player, prodigy_index, all_players,
matched_ids)` (the `all_players` argument is never read in the source). -/
def find_best_match (nep : NepsacPlayer) (idx : PIndex) (claimed : List Nat) :
    Option ProdigyPlayer × ℚ × String :=
  match sortCands (candidateEntries nep idx claimed) with
  | [] => (none, 0, "no_match")
  | best :: rest => (some best.player, dampedConf best rest, best.reason)

/-- A `match_players` result row (the rounded `match_confidence` copy is
not modelled; no claim depends on it). -/
structure Row where
  nep : NepsacPlayer
  matched : Bool
  reason : String
  player_id : Option Nat
deriving DecidableEq, Repr

/-- The per-query loop of `match_players`: accept when a match exists with
confidence at least 0.5, extending the claimed set. -/
def matchGo (idx : PIndex) : List NepsacPlayer → List Nat → List Row
  | [], _ => []
  | nep :: rest, claimed =>
    let r := find_best_match nep idx claimed
    match r.1 with
    | some m =>
      if r.2.1 ≥ 1/2 then
        ⟨nep, true, r.2.2, some m.player_id⟩ :: matchGo idx rest (m.player_id :: claimed)
      else
        ⟨nep, false, r.2.2, none⟩ :: matchGo idx rest claimed
    | none => ⟨nep, false, r.2.2, none⟩ :: matchGo idx rest claimed

/-- `match_players`: build the index once, process queries in descending
point order (Python's stable `sorted(..., reverse=True)`), thread the
claimed set. -/
def match_players (neps : List NepsacPlayer) (prods : List ProdigyPlayer) : List Row :=
  let idx := build_player_index prods
  matchGo idx (Py.pySorted (fun a b => decide (b.points ≤ a.points)) neps) []

/-- A selected best match was never in the claimed set: the candidate list
is filtered on `player_id in matched_ids` before scoring. -/
theorem find_best_match_unclaimed (nep : NepsacPlayer) (idx : PIndex)
    (claimed : List Nat) (m : ProdigyPlayer) (c : ℚ) (r : String)
    (h : find_best_match nep idx claimed = (some m, c, r)) :
    m.player_id ∉ claimed := by
  unfold find_best_match at h
  cases hs : sortCands (candidateEntries nep idx claimed) with
  | nil =>
    rw [hs] at h
    exact absurd h (by simp)
  | cons best rest =>
    rw [hs] at h
    simp only [Prod.mk.injEq] at h
    have hm : best.player = m := Option.some.inj h.1
    have hbest : best ∈ sortCands (candidateEntries nep idx claimed) := by
      rw [hs]
      exact List.mem_cons_self _ _
    have hmem : best ∈ candidateEntries nep idx claimed := by
      unfold sortCands at hbest
      exact (Py.mem_pySorted _ _ best).mp hbest
    unfold candidateEntries at hmem
    obtain ⟨pr, hpr, hf⟩ := List.mem_filterMap.mp hmem
    have hple : best.player = pr := by
      by_cases hge : (scoreEntry nep pr).score ≥ 40
      · rw [if_pos hge] at hf
        have he := Option.some.inj hf
        rw [← he]
        rfl
      · rw [if_neg hge] at hf
        exact absurd hf (by simp)
    obtain ⟨hin, hflt⟩ := List.mem_filter.mp hpr
    intro hmemc
    rw [← hm, hple] at hmemc
    have : claimed.contains pr.player_id = true := List.elem_iff.mpr hmemc
    rw [this] at hflt
    exact absurd hflt (by simp)

/-- The ids assigned by `matchGo` are pairwise distinct and disjoint from
the incoming claimed set. -/
theorem matchGo_ids (idx : PIndex) : ∀ (l : List NepsacPlayer) (claimed : List Nat),
    ((matchGo idx l claimed).filterMap (fun r => r.player_id)).Nodup
    ∧ ∀ i ∈ (matchGo idx l claimed).filterMap (fun r => r.player_id), i ∉ claimed := by
  intro l
  induction l with
  | nil =>
    intro claimed
    exact ⟨List.nodup_nil, fun i hi => absurd hi (List.not_mem_nil i)⟩
  | cons nep rest ih =>
    intro claimed
    rcases hfb : find_best_match nep idx claimed with ⟨om, c, rs⟩
    cases om with
    | some m =>
      by_cases hconf : c ≥ 1/2
      · have hgo : matchGo idx (nep :: rest) claimed
            = ⟨nep, true, rs, some m.player_id⟩ :: matchGo idx rest (m.player_id :: claimed) := by
          simp only [matchGo, hfb]
          rw [if_pos hconf]
        rw [hgo]
        obtain ⟨ihn, ihc⟩ := ih (m.player_id :: claimed)
        rw [List.filterMap_cons]
        dsimp only
        constructor
        · refine List.nodup_cons.mpr ⟨?_, ihn⟩
          intro hcontra
          exact (ihc _ hcontra) (List.mem_cons_self _ _)
        · intro i hi
          rcases List.mem_cons.mp hi with he | ht
          · subst he
            exact find_best_match_unclaimed nep idx claimed m c rs hfb
          · intro hic
            exact (ihc i ht) (List.mem_cons_of_mem _ hic)
      · have hgo : matchGo idx (nep :: rest) claimed
            = ⟨nep, false, rs, none⟩ :: matchGo idx rest claimed := by
          simp only [matchGo, hfb]
          rw [if_neg hconf]
        rw [hgo]
        rw [List.filterMap_cons]
        dsimp only
        exact ih claimed
    | none =>
      have hgo : matchGo idx (nep :: rest) claimed
          = ⟨nep, false, rs, none⟩ :: matchGo idx rest claimed := by
        simp only [matchGo, hfb]
      rw [hgo]
      rw [List.filterMap_cons]
      dsimp only
      exact ih claimed

end PM

/-!
## Claim theorems
-/

set_option maxRecDepth 4000000

unseal Rat.mul Rat.inv Rat.add Rat.sub

/-- Query record for the C3/C6-style near-name scenario. -/
def mikeQuery : Fuzzy.RosterPlayer := ⟨"Mike Johnson", "", "2026", ""⟩

/-- Reference record whose normalized name equals the query's. -/
def mikeExact : Fuzzy.DbPlayer := ⟨1, "Mike Johnson", 10, none, ""⟩

/-- Reference record with a near-miss name but a matching birth year. -/
def mikeRival : Fuzzy.DbPlayer := ⟨2, "Mike Johnsen", 5, some 2008, ""⟩

/-- Two-record reference population for the C3 scenario. -/
def mikeDb : List Fuzzy.DbPlayer := [mikeExact, mikeRival]

/-- C3 counterexample: the query "Mike Johnson" (born 2008 via grad year
2026) has an exact-normalized-name candidate in its block, yet
`find_best_match` selects the non-exact candidate "Mike Johnsen"
(similarity 11/12, so base 11/12·0.7 ≈ 0.642, plus the 0.2 exact
birth-year bonus = 101/120 ≈ 0.842 > 0.7): birth-year bonuses do displace
an exact name match, contradicting the claim. -/
theorem C3_counterexample :
    (Fuzzy.find_best_match mikeQuery mikeDb (Fuzzy.build_index mikeDb)).1
        = (some mikeRival, 101/120)
      ∧ Fuzzy.normalize_name mikeExact.name = Fuzzy.normalize_name mikeQuery.name
      ∧ mikeExact ∈ (Fuzzy.queryCandidates mikeQuery mikeDb (Fuzzy.build_index mikeDb)).1
      ∧ Fuzzy.normalize_name mikeRival.name ≠ Fuzzy.normalize_name mikeQuery.name := by
  decide

/-- C3 (amended): an exact-normalized-name candidate is selected — with
final score `0.7 + adjustment` — provided every other candidate both has
best-variant name similarity strictly below 1 and receives secondary
(birth-year plus team) adjustments no larger than the exact candidate's.
Without that proviso the claim fails (see the counterexample): a rival
with similarity ≥ 93% and a birth-year bonus the exact candidate lacks
overtakes it. -/
theorem C3_amended (qname : String) (ry : Option Int) (rteam : String)
    (cands : List Fuzzy.DbPlayer) (x : Fuzzy.DbPlayer)
    (hx : x ∈ cands)
    (hxname : Fuzzy.normalize_name x.name = qname)
    (hqne : qname ≠ "")
    (hriv : ∀ y ∈ cands, y ≠ x →
      Fuzzy.nameSim (Fuzzy.get_name_variants qname) y < 1 ∧
      Fuzzy.adjustment ry rteam y ≤ Fuzzy.adjustment ry rteam x) :
    Fuzzy.scanCandidates (Fuzzy.get_name_variants qname) ry rteam cands
      = (some x, 7/10 + Fuzzy.adjustment ry rteam x) := by
  have hevalx := Fuzzy.evalScore_exact qname ry rteam x hxname hqne
  have hpos : (0 : ℚ) < 7/10 + Fuzzy.adjustment ry rteam x := by
    have hlb := Fuzzy.adjustment_lb ry rteam x
    linarith
  unfold Fuzzy.scanCandidates
  refine Fuzzy.scan_argmax _ ry rteam cands (none, 0) x _ hx hevalx hpos ?_
  intro y hy hyx s hs
  obtain ⟨hsim, hadj⟩ := hriv y hy hyx
  have heq := Fuzzy.evalScore_some_eq _ ry rteam y s hs
  have hsim2 : SeqMatcher.maxSim (Fuzzy.get_name_variants qname)
      (Fuzzy.normalize_name y.name) < 1 := hsim
  have hmul : SeqMatcher.maxSim (Fuzzy.get_name_variants qname)
      (Fuzzy.normalize_name y.name) * (7/10) < 1 * (7/10) :=
    mul_lt_mul_of_pos_right hsim2 (by norm_num)
  rw [heq]
  linarith

/-- Witness for C3 (amended): against a candidate list holding the exact
"Mike Johnson" record and a sub-1-similarity rival with no larger
adjustments, the exact record is selected. -/
theorem C3_amended_witness :
    Fuzzy.scanCandidates (Fuzzy.get_name_variants "mike johnson") none ""
        [mikeExact, mikeRival]
      = (some mikeExact, 7/10 + Fuzzy.adjustment none "" mikeExact) :=
  C3_amended "mike johnson" none "" [mikeExact, mikeRival] mikeExact
    (by decide) (by decide) (by decide) (by decide)

/-- Query with no DOB, no graduation year and no team hint. -/
def johnQuery : Fuzzy.RosterPlayer := ⟨"John Smith", "", "", ""⟩

/-- Reference record whose normalized name equals the query's exactly. -/
def johnRef : Fuzzy.DbPlayer := ⟨7, "John Smith", 0, none, ""⟩

/-- One-record reference population for the C4 scenario. -/
def johnDb : List Fuzzy.DbPlayer := [johnRef]

/-- C4 counterexample: a query with no birth-year hint and no team hint
whose normalized name exactly equals a reference record's normalized name
is classified LOW, not HIGH: the base score of an exact name is
1.0 · 0.7 = 0.7, which clears the 0.65 acceptance cutoff but not the 0.85
HIGH cutoff (nor the 0.75 MEDIUM cutoff). -/
theorem C4_counterexample :
    Fuzzy.extract_birth_year_from_dob johnQuery.dob = none
    ∧ Fuzzy.extract_birth_year_from_grad johnQuery.grad_year = none
    ∧ johnQuery.team = ""
    ∧ Fuzzy.normalize_name johnRef.name = Fuzzy.normalize_name johnQuery.name
    ∧ johnRef ∈ (Fuzzy.queryCandidates johnQuery johnDb (Fuzzy.build_index johnDb)).1
    ∧ Fuzzy.classify (Fuzzy.find_best_match johnQuery johnDb (Fuzzy.build_index johnDb)).1.1
        (Fuzzy.find_best_match johnQuery johnDb (Fuzzy.build_index johnDb)).1.2 = "LOW" := by
  decide

/-- C4 (amended): with no derivable birth year and an empty team hint,
missing signals are neutral (contribute zero adjustment), so every
candidate score is at most 0.7; the tier therefore can never be HIGH or
MEDIUM, and whenever some block candidate's normalized name exactly equals
the query's, the score is exactly 0.7 and the tier is exactly LOW. -/
theorem C4_amended (rp : Fuzzy.RosterPlayer) (db : List Fuzzy.DbPlayer) (idx : Fuzzy.Index)
    (hdob : Fuzzy.extract_birth_year_from_dob rp.dob = none)
    (hgrad : Fuzzy.extract_birth_year_from_grad rp.grad_year = none)
    (hteam : rp.team = "") :
    ((Fuzzy.find_best_match rp db idx).1.2 ≤ 7/10
      ∧ Fuzzy.classify (Fuzzy.find_best_match rp db idx).1.1
          (Fuzzy.find_best_match rp db idx).1.2 ≠ "HIGH"
      ∧ Fuzzy.classify (Fuzzy.find_best_match rp db idx).1.1
          (Fuzzy.find_best_match rp db idx).1.2 ≠ "MEDIUM")
    ∧ ∀ p ∈ (Fuzzy.queryCandidates rp db idx).1,
        Fuzzy.normalize_name p.name = Fuzzy.normalize_name rp.name →
        Fuzzy.classify (Fuzzy.find_best_match rp db idx).1.1
          (Fuzzy.find_best_match rp db idx).1.2 = "LOW" := by
  have hry : Fuzzy.rosterYear rp = none := by
    unfold Fuzzy.rosterYear
    rw [hdob]
    exact hgrad
  have hlt : Py.lower rp.team = "" := by rw [hteam]; rfl
  have hfb : (Fuzzy.find_best_match rp db idx).1
      = Fuzzy.scanCandidates (Fuzzy.get_name_variants (Fuzzy.normalize_name rp.name))
          none "" (Fuzzy.queryCandidates rp db idx).1 := by
    show Fuzzy.scanCandidates (Fuzzy.get_name_variants (Fuzzy.normalize_name rp.name))
        (Fuzzy.rosterYear rp) (Py.lower rp.team) (Fuzzy.queryCandidates rp db idx).1
      = Fuzzy.scanCandidates (Fuzzy.get_name_variants (Fuzzy.normalize_name rp.name))
          none "" (Fuzzy.queryCandidates rp db idx).1
    rw [hry, hlt]
  have hbound : ∀ p ∈ (Fuzzy.queryCandidates rp db idx).1, ∀ s,
      Fuzzy.evalScore (Fuzzy.get_name_variants (Fuzzy.normalize_name rp.name)) none "" p
        = some s → s ≤ 7/10 := by
    intro p hp s hs
    have heq := Fuzzy.evalScore_some_eq _ none "" p s hs
    rw [Fuzzy.adjustment_no_hints "" p rfl, add_zero] at heq
    have hub := SeqMatcher.maxSim_le_one
      (Fuzzy.get_name_variants (Fuzzy.normalize_name rp.name)) (Fuzzy.normalize_name p.name)
    have hmul : SeqMatcher.maxSim
        (Fuzzy.get_name_variants (Fuzzy.normalize_name rp.name))
        (Fuzzy.normalize_name p.name) * (7/10) ≤ 1 * (7/10) :=
      mul_le_mul_of_nonneg_right hub (by norm_num)
    rw [heq]
    linarith
  have hle : (Fuzzy.find_best_match rp db idx).1.2 ≤ 7/10 := by
    rw [hfb]
    exact Fuzzy.scan_le _ none "" (7/10) _ (none, 0) (by norm_num) hbound
  refine ⟨⟨hle, (Fuzzy.classify_low_cap _ _ hle).1, (Fuzzy.classify_low_cap _ _ hle).2⟩, ?_⟩
  intro p hp hname
  by_cases hq : Fuzzy.normalize_name rp.name = ""
  · exfalso
    have hempty : (Fuzzy.queryCandidates rp db idx).1 = [] := by
      unfold Fuzzy.queryCandidates
      simp only [hq, if_pos]
    rw [hempty] at hp
    exact List.not_mem_nil p hp
  · have heval := Fuzzy.evalScore_exact (Fuzzy.normalize_name rp.name) none "" p hname hq
    rw [Fuzzy.adjustment_no_hints "" p rfl, add_zero] at heval
    have hge : (7/10 : ℚ) ≤ (Fuzzy.find_best_match rp db idx).1.2 := by
      rw [hfb]
      exact Fuzzy.scan_ge _ none "" _ (none, 0) p (7/10) hp heval
    have heq2 : (Fuzzy.find_best_match rp db idx).1.2 = 7/10 := le_antisymm hle hge
    have hsome : (Fuzzy.find_best_match rp db idx).1.1.isSome := by
      rw [hfb]
      refine Fuzzy.scan_moved_isSome _ none "" _ (none, 0) ?_
      have hs2 : (Fuzzy.scanCandidates (Fuzzy.get_name_variants (Fuzzy.normalize_name rp.name))
          none "" (Fuzzy.queryCandidates rp db idx).1).2 = 7/10 := by
        rw [← hfb]
        exact heq2
      show (Fuzzy.scanCandidates (Fuzzy.get_name_variants (Fuzzy.normalize_name rp.name))
          none "" (Fuzzy.queryCandidates rp db idx).1).2 ≠ (0 : ℚ)
      rw [hs2]
      norm_num
    obtain ⟨v, hv⟩ := Option.isSome_iff_exists.mp hsome
    rw [hv, heq2]
    show (if (7 : ℚ)/10 ≥ 13/20 then
        if (7 : ℚ)/10 ≥ 17/20 then "HIGH" else if (7 : ℚ)/10 ≥ 3/4 then "MEDIUM" else "LOW"
      else "NO_MATCH") = "LOW"
    rw [if_pos (by norm_num), if_neg (by norm_num), if_neg (by norm_num)]

/-- Witness for C4 (amended): the John Smith query with no hints and an
exact-name reference is classified LOW. -/
theorem C4_amended_witness :
    Fuzzy.classify (Fuzzy.find_best_match johnQuery johnDb (Fuzzy.build_index johnDb)).1.1
      (Fuzzy.find_best_match johnQuery johnDb (Fuzzy.build_index johnDb)).1.2 = "LOW" :=
  (C4_amended johnQuery johnDb (Fuzzy.build_index johnDb) (by decide) (by decide) rfl).2
    johnRef (by decide) (by decide)

/-- Reference player bucketed under block key "doe". -/
def doePlayer : Fuzzy.DbPlayer := ⟨11, "Adam Doe", 1, none, ""⟩

/-- Reference player bucketed under block key "dor" (similarity of "dor"
to "doe" is 2/3 > 0.6, so fuzzy expansion pulls its bucket in). -/
def dorPlayer : Fuzzy.DbPlayer := ⟨12, "Bob Dorian", 2, none, ""⟩

/-- Two-bucket reference population for the C1 scenario. -/
def doeDb : List Fuzzy.DbPlayer := [doePlayer, dorPlayer]

/-- C1: the Blocking Index is NOT immutable under lookup.  Because
`candidates = index.get(key, [])` aliases the stored bucket and
`candidates.extend(index[k])` appends to it in place, a candidate lookup
for "doe" permanently grows the "doe" bucket with the fuzzy-matched "dor"
bucket: the bucket goes from `[doePlayer]` to `[doePlayer, dorPlayer]`,
and a second identical lookup returns a longer candidate list
(`[doePlayer, dorPlayer, dorPlayer]`) than the first. -/
theorem C1_mutation :
    Fuzzy.indexFind (Fuzzy.build_index doeDb) "doe" = some [doePlayer]
    ∧ (Fuzzy.lookupCandidates doeDb (Fuzzy.build_index doeDb) "doe").1
        = [doePlayer, dorPlayer]
    ∧ Fuzzy.indexFind (Fuzzy.lookupCandidates doeDb (Fuzzy.build_index doeDb) "doe").2 "doe"
        = some [doePlayer, dorPlayer]
    ∧ (Fuzzy.lookupCandidates doeDb (Fuzzy.build_index doeDb) "doe").2
        ≠ Fuzzy.build_index doeDb
    ∧ (Fuzzy.lookupCandidates doeDb
        (Fuzzy.lookupCandidates doeDb (Fuzzy.build_index doeDb) "doe").2 "doe").1
        = [doePlayer, dorPlayer, dorPlayer] := by
  decide

/-- C8 counterexample: `normalize_name` performs no suffix-token removal,
so "John Smith Jr." and "John Smith" do NOT normalize to the same string
(the claim asserts they do). -/
theorem C8_counterexample :
    Fuzzy.normalize_name "John Smith Jr." = "john smith jr"
    ∧ Fuzzy.normalize_name "John Smith" = "john smith"
    ∧ Fuzzy.normalize_name "John Smith Jr." ≠ Fuzzy.normalize_name "John Smith" := by
  decide

/-- C8 (amended): for every raw name string, `normalize` lowercases,
strips characters outside word characters (letters, digits, underscore)
and whitespace, and collapses whitespace runs to single spaces — every
output character is a space or a non-uppercase word character — but it
does not remove suffix tokens: "John Smith Jr." normalizes to
"john smith jr", distinct from "john smith". -/
theorem C8_amended :
    (∀ s : String, ∀ c ∈ (Fuzzy.normalize_name s).data,
      c = ' ' ∨ (Py.isWordChar c = true ∧ c.isUpper = false))
    ∧ Fuzzy.normalize_name "John Smith Jr." = "john smith jr"
    ∧ Fuzzy.normalize_name "John Smith" = "john smith"
    ∧ Fuzzy.normalize_name "John Smith Jr." ≠ Fuzzy.normalize_name "John Smith" := by
  refine ⟨Fuzzy.normalize_name_chars, ?_, ?_, ?_⟩
  · decide
  · decide
  · decide

/-- Witness for C8 (amended): the universal character-class clause applied
at a concrete string and character. -/
theorem C8_amended_witness :
    'j' ∈ (Fuzzy.normalize_name "John Smith Jr.").data
    ∧ ('j' = ' ' ∨ (Py.isWordChar 'j' = true ∧ 'j'.isUpper = false)) :=
  ⟨by decide, C8_amended.1 "John Smith Jr." 'j' (by decide)⟩

/-- Reference record for the C5 scenario ("John Doherty" at Avon Old
Farms). -/
def dohertyPlayer : Fast.FPlayer :=
  ⟨21, "John Doherty", "john doherty", 3, none, "avon old farms"⟩

/-- C5: the fast matcher's surname gate.  Whenever a candidate's last-name
similarity to the query's last name is below the 0.7 threshold, the
scoring loop skips the candidate entirely (score `none`), before the
given-name gate and before any birth-year or team signal is consulted; in
particular the query "John Doe" with team hint "Avon Old Farms" against
the reference "John Doherty" (same team) produces `(None, 0)` — NO_MATCH —
despite the exact team agreement (similarity("doe","doherty") = 0.6 <
0.7). -/
theorem C5_surname_gate :
    (∀ (fv : List String) (ln : String) (ry : Option Int) (rt : String) (p : Fast.FPlayer),
      Fast.similarity ln (Fast.dbLast p) < 7/10 →
      Fast.scoreCandidateFast fv ln ry rt p = none)
    ∧ Fast.find_best_match "john doe" none "avon old farms"
        (Fast.build_index [dohertyPlayer]) = (none, 0) := by
  constructor
  · intro fv ln ry rt p hsim
    unfold Fast.scoreCandidateFast
    split
    · rfl
    · rename_i h1
      cases hsplit : Py.split p.name_normalized with
      | nil => rfl
      | cons db_first dbRest =>
        have hlast : Fast.dbLast p = (db_first :: dbRest).getLast (List.cons_ne_nil _ _) := by
          unfold Fast.dbLast
          rw [hsplit]
          rw [List.getLast?_eq_getLast (db_first :: dbRest) (List.cons_ne_nil _ _)]
          rfl
        exact if_pos (hlast ▸ hsim)
  · decide

/-- Witness for C5: the surname gate fired at the concrete John
Doe/Doherty pair. -/
theorem C5_witness :
    Fast.similarity "doe" (Fast.dbLast dohertyPlayer) < 7/10
    ∧ Fast.scoreCandidateFast (Fast.get_first_name_variants "john") "doe" none
        "avon old farms" dohertyPlayer = none :=
  ⟨by decide,
    C5_surname_gate.1 (Fast.get_first_name_variants "john") "doe" none
      "avon old farms" dohertyPlayer (by decide)⟩

/-- With an empty index every query resolves to `(None, 0, "no_match")`. -/
theorem pmFindBestMatchEmpty (nep : PM.NepsacPlayer) (claimed : List Nat) :
    PM.find_best_match nep ([] : PM.PIndex) claimed = (none, 0, "no_match") := by
  unfold PM.find_best_match
  have h : PM.candidateEntries nep [] claimed = [] := rfl
  rw [h]
  have h2 : PM.sortCands ([] : List PM.Cand) = [] := rfl
  rw [h2]

/-- Over an empty reference population `matchGo` emits one unmatched row
per query. -/
theorem pmMatchGoEmpty : ∀ (l : List PM.NepsacPlayer) (claimed : List Nat),
    PM.matchGo ([] : PM.PIndex) l claimed
      = l.map (fun nep => ⟨nep, false, "no_match", none⟩) := by
  intro l
  induction l with
  | nil => intro claimed; rfl
  | cons nep rest ih =>
    intro claimed
    have hgo := pmFindBestMatchEmpty nep claimed
    simp only [PM.matchGo, hgo, List.map_cons]
    rw [ih claimed]

/-- Query record for the C2 empty-population scenario. -/
def cexQuery : PM.NepsacPlayer := ⟨"Some Player", "Some", "Player", "team x", "F", 5⟩

/-- C2 counterexample: the Batch Matcher does NOT fail fast on an empty
reference population — `match_players` runs to completion and emits an
unmatched (`no_match`) result row for the query, exactly the behaviour
the claim says never happens. -/
theorem C2_counterexample :
    PM.match_players [cexQuery] [] = [⟨cexQuery, false, "no_match", none⟩] := by
  decide

/-- C2 (amended): there is no empty-population guard: for every query
batch, matching against zero reference records silently produces exactly
one result per query, every one unmatched with no reference id. -/
theorem C2_amended (qs : List PM.NepsacPlayer) :
    (PM.match_players qs []).length = qs.length
    ∧ (PM.match_players qs []).all (fun r => !r.matched && r.player_id.isNone) = true := by
  unfold PM.match_players
  have hidx : PM.build_player_index [] = [] := rfl
  rw [hidx, pmMatchGoEmpty]
  constructor
  · rw [List.length_map, Py.length_pySorted]
  · simp [List.all_eq_true]

/-- Query and reference records for the C6 ambiguous near-tie scenario. -/
def mjQuery : PM.NepsacPlayer := ⟨"Mike Johnson", "Mike", "Johnson", "xteam", "", 30⟩

/-- Exact-name reference for the C6 scenario (score 90). -/
def mjA : PM.ProdigyPlayer := ⟨31, "Mike Johnson", "Mike", "Johnson", some 2008, "", "yteam"⟩

/-- Near-tie rival reference for the C6 scenario (score 80 > 85% of 90). -/
def mjB : PM.ProdigyPlayer := ⟨32, "Mike Johnston", "Mike", "Johnston", some 2008, "", "zteam"⟩

/-- C6 counterexample: with a runner-up inside the ambiguity margin
(80 > 0.85·90 = 76.5) the confidence is damped (min(90/100,1)·0.8 =
18/25 = 0.72) but the returned reason is the best candidate's signal tags
with NO "ambiguous" marker — the claim's annotation half is false. -/
theorem C6_counterexample :
    PM.find_best_match mjQuery (PM.build_player_index [mjA, mjB]) []
      = (some mjA, 18/25, "exact_name+exact_lastname+exact_firstname")
    ∧ (PM.sortCands (PM.candidateEntries mjQuery (PM.build_player_index [mjA, mjB]) [])).map
        PM.Cand.score = [90, 80]
    ∧ ((80 : ℚ) > 90 * (17/20))
    ∧ Py.isSubstr "ambiguous" "exact_name+exact_lastname+exact_firstname" = false := by
  decide

/-- C6 (amended): whenever the sorted candidate list has a runner-up
whose score strictly exceeds 85% of the best score, the returned
confidence is the base confidence `min(score/100, 1)` multiplied by the
0.8 damping factor — but the reason stays the best candidate's own signal
tags, unchanged (the source never annotates an "ambiguous" marker; and at
exactly 85% no damping occurs, the comparison being strict). -/
theorem C6_amended (nep : PM.NepsacPlayer) (idx : PM.PIndex) (claimed : List Nat)
    (b r2 : PM.Cand) (rest : List PM.Cand)
    (hs : PM.sortCands (PM.candidateEntries nep idx claimed) = b :: r2 :: rest)
    (hclose : r2.score > b.score * (17/20)) :
    PM.find_best_match nep idx claimed
      = (some b.player, (min (b.score / 100) 1) * (4/5), b.reason) := by
  unfold PM.find_best_match
  rw [hs]
  simp only [PM.dampedConf]
  rw [if_pos hclose]

/-- Witness for C6 (amended): the Mike Johnson / Mike Johnston near-tie
gets the damped confidence and the undamped reason tags. -/
theorem C6_amended_witness :
    PM.find_best_match mjQuery (PM.build_player_index [mjA, mjB]) []
      = (some (PM.scoreEntry mjQuery mjA).player,
          (min ((PM.scoreEntry mjQuery mjA).score / 100) 1) * (4/5),
          (PM.scoreEntry mjQuery mjA).reason) :=
  C6_amended mjQuery (PM.build_player_index [mjA, mjB]) []
    (PM.scoreEntry mjQuery mjA) (PM.scoreEntry mjQuery mjB) []
    (by decide) (by decide)

/-- C7: one-to-one uniqueness in assignment mode — for every batch run,
no reference id appears as the matched id of more than one result row:
the claimed set is consulted (candidates with already-claimed ids are
skipped before scoring) and extended whenever a match is accepted. -/
theorem C7_one_to_one (neps : List PM.NepsacPlayer) (prods : List PM.ProdigyPlayer) :
    ((PM.match_players neps prods).filterMap (fun r => r.player_id)).Nodup := by
  unfold PM.match_players
  exact (PM.matchGo_ids _ _ _).1

/-- C9: nickname expansion over the registered table.  For every table
entry and every nickname registered in it, expanding the nickname yields
the token itself, the canonical full form, and every sibling nickname of
that entry; and the pair is symmetric — the nickname is in the expansion
of the canonical form and vice versa (so e.g. "bill" and "will" are
reachable from each other through "william"). -/
theorem C9_nickname_symmetry :
    ∀ p ∈ Fuzzy.NICKNAMES, ∀ nick ∈ p.2,
      nick ∈ Fuzzy.get_name_variants nick
      ∧ p.1 ∈ Fuzzy.get_name_variants nick
      ∧ (∀ sib ∈ p.2, sib ∈ Fuzzy.get_name_variants nick)
      ∧ nick ∈ Fuzzy.get_name_variants p.1 := by
  decide

/-- Witness for C9: the "william"/"bill" pair, including the sibling
"will" reachable from "bill". -/
theorem C9_witness :
    "bill" ∈ Fuzzy.get_name_variants "bill"
    ∧ "william" ∈ Fuzzy.get_name_variants "bill"
    ∧ "will" ∈ Fuzzy.get_name_variants "bill"
    ∧ "bill" ∈ Fuzzy.get_name_variants "william" :=
  have h := C9_nickname_symmetry ("william", ["will", "bill", "billy", "willy", "liam"])
    (by decide) "bill" (by decide)
  ⟨h.1, h.2.1, h.2.2.1 "will" (by decide), h.2.2.2⟩

/-- C10: deriving a birth year from a graduation year is total by
construction (the embedding returns an `Option`, mirroring the
`try/except` that swallows every parse error), and for every input string
it returns `grad - 18` exactly when the string parses as a Python integer
in 2020–2035 inclusive, `none` otherwise; the fast script's copy computes
the identical function. -/
theorem C10_grad_year :
    ∀ (s : String) (y : Int),
      (Fuzzy.extract_birth_year_from_grad s = some y
        ↔ ∃ g : Int, Py.parseInt s = some g ∧ 2020 ≤ g ∧ g ≤ 2035 ∧ y = g - 18)
      ∧ Fast.extract_birth_year_from_grad s = Fuzzy.extract_birth_year_from_grad s := by
  intro s y
  constructor
  · unfold Fuzzy.extract_birth_year_from_grad
    by_cases hs : s = ""
    · rw [if_pos hs]
      constructor
      · intro h
        exact absurd h (by simp)
      · rintro ⟨g, hg, _⟩
        rw [hs] at hg
        have hnone : Py.parseInt "" = none := rfl
        rw [hnone] at hg
        exact absurd hg (by simp)
    · rw [if_neg hs]
      cases hp : Py.parseInt s with
      | none =>
        constructor
        · intro h
          exact absurd h (by simp)
        · rintro ⟨g, hg, _⟩
          exact absurd hg (by simp)
      | some g =>
        dsimp only
        by_cases hr : 2020 ≤ g ∧ g ≤ 2035
        · rw [if_pos hr]
          constructor
          · intro h
            exact ⟨g, rfl, hr.1, hr.2, (Option.some.inj h).symm⟩
          · rintro ⟨g', hg', h1, h2, h3⟩
            have he : g = g' := Option.some.inj hg'
            rw [h3, ← he]
        · rw [if_neg hr]
          constructor
          · intro h
            exact absurd h (by simp)
          · rintro ⟨g', hg', h1, h2, h3⟩
            have he : g = g' := Option.some.inj hg'
            subst he
            exact absurd ⟨h1, h2⟩ hr
  · rfl
